import Mathlib

set_option autoImplicit false

/-!
# Verification of the roth-conversion-calc library (src/src/lib.rs)

Shallow embedding of the Rust library. Machine integers (`u32`, `u16`) are
modelled as `ℕ` with explicit wrap-around (`% 2^32`, `% 2^16`) at every
arithmetic operation the Rust source performs on them, matching release-mode
semantics; a separate safety analysis identifies the points where debug builds
would panic. The `f64` computations (account growth, RMD division, tax
formula) are modelled exactly: an IEEE-754 binary64 value is a dyadic rational
`m * 2^e`, and every operation computes the exact rational result and then
rounds to 53 significant bits with round-to-nearest, ties-to-even. The numeric
range of this program (monetary u32 values, rates in [0,1]) stays far inside
the normal range of binary64, so neither overflow, subnormals nor signs arise.
-/

/-- Number of binary digits of `n` (`⌊log2 n⌋ + 1` for `n > 0`, `0` for `0`),
computed with structural recursion on a fuel bound so that the kernel can
evaluate it; `bitlen` is correct for all `n < 2^2000`, far above every value
this development manipulates. -/
def bitlenAux : ℕ → ℕ → ℕ
  | 0, _ => 0
  | fuel + 1, n => if n = 0 then 0 else bitlenAux fuel (n / 2) + 1

def bitlen (n : ℕ) : ℕ := bitlenAux 2000 n

/-- A (nonnegative) binary64 value, exactly: the rational `m * 2^e`. -/
structure F64 where
  m : ℕ
  e : ℤ
  deriving DecidableEq, Repr

/-- The exact rational value of a binary64 datum (for specification and
proofs; decidable comparisons go through the integer representation). -/
def F64.val (f : F64) : ℚ := (f.m : ℚ) * (2 : ℚ) ^ f.e

/-- Round an exact nonnegative value `m * 2^e` to 53 significant bits,
round-to-nearest, ties-to-even. Values already expressible in 53 bits are
returned unchanged. -/
def norm53 (m : ℕ) (e : ℤ) : F64 :=
  if m < 2 ^ 53 then ⟨m, e⟩
  else
    let k := bitlen m - 53
    let q := m / 2 ^ k
    let r := m % 2 ^ k
    let q2 := if 2 * r > 2 ^ k ∨ (2 * r = 2 ^ k ∧ q % 2 = 1) then q + 1 else q
    ⟨q2, e + k⟩

/-- The mantissa of `f` rescaled to exponent `e` (exact whenever `e ≤ f.e`):
`f.val = mant f e * 2^e`. -/
def F64.mant (f : F64) (e : ℤ) : ℕ := f.m * 2 ^ (f.e - e).toNat

/-- IEEE-754 binary64 multiplication: exact product, then one rounding. -/
def F64.mul (a b : F64) : F64 := norm53 (a.m * b.m) (a.e + b.e)

/-- IEEE-754 binary64 addition: exact sum, then one rounding. -/
def F64.add (a b : F64) : F64 :=
  let e := min a.e b.e
  norm53 (a.mant e + b.mant e) e

/-- IEEE-754 binary64 subtraction for `a ≥ b` (the only case this program
reaches): exact difference, then one rounding. -/
def F64.sub (a b : F64) : F64 :=
  let e := min a.e b.e
  norm53 (a.mant e - b.mant e) e

/-- IEEE-754 binary64 division, correctly rounded (round-to-nearest,
ties-to-even), for nonnegative operands. The scaled quotient is computed with
at least 54 significant bits, so its leading bits plus the nonzero-remainder
("sticky") information determine the rounding exactly. -/
def F64.div (a b : F64) : F64 :=
  if a.m = 0 ∨ b.m = 0 then ⟨0, 0⟩
  else
    let t : ℤ := 55 + (bitlen b.m : ℤ) - (bitlen a.m : ℤ)
    let A := a.m * 2 ^ t.toNat
    let B := b.m * 2 ^ (-t).toNat
    let q := A / B
    let r := A % B
    let k := bitlen q - 53
    let cut := q % 2 ^ k
    let low := q / 2 ^ k
    let half := 2 ^ k / 2
    let up : Bool := cut > half ∨ (cut = half ∧ (r ≠ 0 ∨ low % 2 = 1))
    ⟨if up then low + 1 else low, a.e - b.e - t + k⟩

/-- The binary64 value of a small natural number (exact for `n < 2^53`;
all `u32` values cast to `f64` in the source are exact). -/
def F64.ofNat (n : ℕ) : F64 := ⟨n, 0⟩

/-- The binary64 literal `1f64`. -/
def one64 : F64 := ⟨1, 0⟩

/-- Floor of a nonnegative binary64 value. -/
def F64.floor (f : F64) : ℕ :=
  if 0 ≤ f.e then f.m * 2 ^ f.e.toNat else f.m / 2 ^ (-f.e).toNat

/-- Rust's `as u32` cast from `f64`: truncation toward zero, saturating at
`u32::MAX` (the program never produces negative or NaN operands here). -/
def F64.toU32 (f : F64) : ℕ := min f.floor (2 ^ 32 - 1)

/-- Decidable comparison `a ≤ b` on exact binary64 values. -/
def F64.ble (a b : F64) : Bool :=
  let e := min a.e b.e
  a.mant e ≤ b.mant e

/-- Decidable comparison `a < b` on exact binary64 values. -/
def F64.blt (a b : F64) : Bool :=
  let e := min a.e b.e
  a.mant e < b.mant e

/-! ## Tax calculator (`get_tax`, lib.rs 334-345)

The 2019 single-filer schedule. The Rust source casts the `u32` income to
`f64` (exact), compares it against integer literals (exact, hence modelled as
`ℕ` comparisons), subtracts the bracket threshold (difference of two exactly
representable integers below `2^53`, hence exact), multiplies by the bracket
rate literal and adds the bracket base literal (each one IEEE rounding), and
truncates back to `u32`. The rate literals are the correctly rounded values
of the decimal fractions, i.e. exactly `F64.div`; the base literals are all
exactly representable dyadics. -/

def rate37 : F64 := F64.div (F64.ofNat 37) (F64.ofNat 100)
def rate35 : F64 := F64.div (F64.ofNat 35) (F64.ofNat 100)
def rate32 : F64 := F64.div (F64.ofNat 32) (F64.ofNat 100)
def rate24 : F64 := F64.div (F64.ofNat 24) (F64.ofNat 100)
def rate22 : F64 := F64.div (F64.ofNat 22) (F64.ofNat 100)
def rate12 : F64 := F64.div (F64.ofNat 12) (F64.ofNat 100)
def rate10 : F64 := F64.div (F64.ofNat 10) (F64.ofNat 100)

def base37 : F64 := ⟨307597, -1⟩
def base35 : F64 := ⟨93257, -1⟩
def base32 : F64 := ⟨65497, -1⟩
def base24 : F64 := ⟨28765, -1⟩
def base22 : F64 := ⟨4543, 0⟩
def base12 : F64 := ⟨970, 0⟩

def get_tax (taxable_income : ℕ) : ℕ :=
  if taxable_income > 510300 then
    (F64.add (F64.mul rate37 (F64.ofNat (taxable_income - 510300))) base37).toU32
  else if taxable_income > 204100 then
    (F64.add (F64.mul rate35 (F64.ofNat (taxable_income - 204100))) base35).toU32
  else if taxable_income > 160725 then
    (F64.add (F64.mul rate32 (F64.ofNat (taxable_income - 160725))) base32).toU32
  else if taxable_income > 84200 then
    (F64.add (F64.mul rate24 (F64.ofNat (taxable_income - 84200))) base24).toU32
  else if taxable_income > 39475 then
    (F64.add (F64.mul rate22 (F64.ofNat (taxable_income - 39475))) base22).toU32
  else if taxable_income > 9700 then
    (F64.add (F64.mul rate12 (F64.ofNat (taxable_income - 9700))) base12).toU32
  else if taxable_income > 0 then
    (F64.mul rate10 (F64.ofNat taxable_income)).toU32
  else 0

/-! ## RMD calculator (lib.rs 287-316) -/

/-- The IRS distribution-period table (index 0 = age 70); each entry is the
binary64 value of the decimal literal in the source, i.e. the correctly
rounded quotient of the two integers. -/
def DISTRIBUTION_PERIODS : List F64 :=
  [274, 265, 256, 247, 238, 229, 220, 212, 203, 195, 187, 179,
   171, 163, 155, 148, 141, 134, 127, 120, 114, 108, 102, 96,
   91, 86, 81, 76, 71, 67, 63, 59, 55, 52, 49, 45,
   42, 39, 37, 34, 31, 29, 26, 24, 21, 19].map
    (fun n => F64.div (F64.ofNat n) (F64.ofNat 10))

/-- `get_rmd_distribution_period` (lib.rs 289-308). `checked_sub` followed by
`unwrap_or_default` is exactly truncated natural subtraction. The match arms
are tried in source order: age 70 with birth month before July; ages 71..=115;
ages ≥ 115; otherwise no distribution period. -/
def get_rmd_distribution_period (birth_year birth_month current_year : ℕ) :
    Option F64 :=
  let age := current_year - birth_year
  if age = 70 ∧ birth_month < 7 then some (DISTRIBUTION_PERIODS.getD 0 ⟨0, 0⟩)
  else if 71 ≤ age ∧ age ≤ 115 then
    some (DISTRIBUTION_PERIODS.getD (age - 70) ⟨0, 0⟩)
  else if 115 ≤ age then some (DISTRIBUTION_PERIODS.getD 45 ⟨0, 0⟩)
  else none

/-- `get_rmd` (lib.rs 310-316): prior balance (exact in `f64`) divided by the
distribution period, truncated back to `u32`; `0` when no period applies. -/
def get_rmd (birth_year birth_month year prior_year_ending_ira_value : ℕ) : ℕ :=
  match get_rmd_distribution_period birth_year birth_month year with
  | some distribution_period =>
      (F64.div (F64.ofNat prior_year_ending_ira_value) distribution_period).toU32
  | none => 0

/-! ## Machine-integer wrap-around helpers -/

/-- Rust release-mode `u32` addition (both operands below `2^32`). -/
def add32 (a b : ℕ) : ℕ := (a + b) % 2 ^ 32

/-- Rust release-mode `u32` subtraction (both operands below `2^32`). -/
def sub32 (a b : ℕ) : ℕ := (a + 2 ^ 32 - b) % 2 ^ 32

/-- Rust release-mode `u32` multiplication (both operands below `2^32`). -/
def mul32 (a b : ℕ) : ℕ := (a * b) % 2 ^ 32

/-- Rust release-mode `u16` wrap-around (for `year + 1`). -/
def wrap16 (a : ℕ) : ℕ := a % 2 ^ 16

/-! ## Data model (lib.rs 30-100)

The names `Action`, `State`, … live in the `RothCalc` namespace because
Mathlib already uses some of them. -/

namespace RothCalc

inductive Action where
  | Continue : Action
  | RolloverThenContinue : ℕ → Action
  deriving DecidableEq, Repr

structure State where
  year : ℕ
  previous_action : Option Action
  roth : ℕ
  ira : ℕ
  basis : ℕ
  total_cash : ℕ
  total_tax : ℕ
  deriving DecidableEq, Repr

/-- `State::new` (the `derive_new` constructor): `previous_action` and
`total_tax` take their defaults. -/
def State.new (year roth ira basis total_cash : ℕ) : State :=
  ⟨year, none, roth, ira, basis, total_cash, 0⟩

structure ProjectArgs where
  yearly_taxable_income_excluding_ira : ℕ
  inflation_effective_annual_rate : F64
  roth_present_value : ℕ
  roth_effective_annual_rate : F64
  ira_present_value : ℕ
  ira_effective_annual_rate : F64
  basis_value : ℕ
  birth_year : ℕ
  birth_month : ℕ
  start_year : ℕ
  end_year : ℕ
  starting_cash : ℕ
  deriving DecidableEq, Repr

/-- `ProjectArgs::validate` (lib.rs 48-76), as a boolean. The `< 0` checks on
unsigned fields are vacuous in the source and elided; the `f64` model here is
nonnegative, so the `< 0.0` rate checks are vacuous as well, and the `> 1.0`
checks are exact comparisons of binary64 values. -/
def ProjectArgs.validate (args : ProjectArgs) : Bool :=
  if F64.blt one64 args.inflation_effective_annual_rate then false
  else if F64.blt one64 args.roth_effective_annual_rate then false
  else if args.ira_present_value < args.basis_value then false
  else if F64.blt one64 args.ira_effective_annual_rate then false
  else if args.start_year < args.birth_year then false
  else if args.end_year < args.start_year then false
  else if args.birth_month < 1 ∨ args.birth_month > 12 then false
  else true

/-! ## Liquidation value and transition model (lib.rs 102-171) -/

/-- `State::maximum_after_tax_cash` (lib.rs 110-114). -/
def State.maximum_after_tax_cash (s : State) (income : ℕ) : ℕ :=
  let taxable_income := add32 (sub32 s.ira s.basis) income
  let tax := get_tax taxable_income
  sub32 (add32 (add32 (add32 s.roth s.total_cash) s.basis) taxable_income) tax

/-- `State::take_action` (lib.rs 116-170), with every `u32` operation
performed with wrap-around exactly where the source performs it, every `f64`
step modelled exactly, and the two early `return None` guards in source
order. -/
def State.take_action (s : State) (action : Action) (birth_year birth_month
    income : ℕ) (roth_rate ira_rate inflation : F64) : Option (State × ℕ) :=
  let rollover := match action with
    | Action.Continue => 0
    | Action.RolloverThenContinue x => x
  if s.ira < rollover then none
  else
    let rmd := get_rmd birth_year birth_month s.year s.ira
    if s.ira < add32 rollover rmd then none
    else
      let roth := (F64.mul (F64.ofNat (add32 s.roth rollover))
        (F64.sub (F64.add one64 roth_rate) inflation)).toU32
      let ira := (F64.mul (F64.ofNat (sub32 (sub32 s.ira rmd) rollover))
        (F64.sub (F64.add one64 ira_rate) inflation)).toU32
      let basis_percent :=
        if ira ≠ 0 then s.basis / add32 (add32 ira rmd) rollover else 0
      let nontaxable_distributions := mul32 basis_percent (add32 rmd rollover)
      let basis := sub32 s.basis nontaxable_distributions
      let taxable_income :=
        add32 (mul32 (sub32 1 basis_percent) (add32 rmd rollover)) income
      let tax := get_tax taxable_income
      let cash := sub32 (add32 rmd income) tax
      let new_state : State :=
        ⟨wrap16 (s.year + 1), some action, roth, ira, basis,
         add32 s.total_cash cash, add32 s.total_tax tax⟩
      let diff := sub32 (new_state.maximum_after_tax_cash income)
        (s.maximum_after_tax_cash income)
      some (new_state, diff)

/-- `successors` (lib.rs 173-196): the two candidate actions in source order,
failures discarded. -/
def successors (parent : State) (args : ProjectArgs) : List (State × ℕ) :=
  [parent.take_action Action.Continue args.birth_year args.birth_month
      args.yearly_taxable_income_excluding_ira args.roth_effective_annual_rate
      args.ira_effective_annual_rate args.inflation_effective_annual_rate,
   parent.take_action (Action.RolloverThenContinue 1000) args.birth_year
      args.birth_month args.yearly_taxable_income_excluding_ira
      args.roth_effective_annual_rate args.ira_effective_annual_rate
      args.inflation_effective_annual_rate].filterMap id

/-! ## Search engine (lib.rs 198-264)

The Rust function recurses along the implicit graph with no structural bound;
the embedding adds an explicit fuel parameter, consumed once per edge of
recursion depth. When the fuel never reaches zero on a traversal (the
`spr_fuel_ok` predicate below), the embedding computes exactly what the Rust
recursion computes. The mutable `Option<(VecDeque<N>, C)>` accumulator is
threaded explicitly; `push_front` is cons. -/

def shortest_path_recursive {N C : Type} (succs : N → List (N × C))
    (succQ : N → Bool) (addC : C → C → C) (ltC : C → C → Bool) :
    ℕ → N → C → Option (List N × C) → Option (List N × C) × Bool
  | 0, _, _, sp => (sp, false)
  | fuel + 1, current, current_cost, sp =>
    let res :=
      if succQ current then
        match sp with
        | none =>
          -- `get_or_insert_with` installs `(∅, current_cost)`; the
          -- `path.0.len() == 0` disjunct then fires.
          (some (([] : List N), current_cost), true)
        | some (p, pc) =>
          if ltC pc current_cost || decide (p.length = 0) then
            (some (([] : List N), current_cost), true)
          else (some (p, pc), false)
      else
        (succs current).foldl
          (fun acc nc =>
            let r := shortest_path_recursive succs succQ addC ltC fuel nc.1
              (addC current_cost nc.2) acc.1
            (r.1, r.2 || acc.2))
          (sp, false)
    if res.2 then
      (Option.map (fun p => (current :: p.1, p.2)) res.1, true)
    else res

def shortest_path {N C : Type} (succs : N → List (N × C)) (succQ : N → Bool)
    (addC : C → C → C) (ltC : C → C → Bool) (zeroC : C) (fuel : ℕ) (start : N) :
    Option (List N × C) :=
  (shortest_path_recursive succs succQ addC ltC fuel start zeroC none).1

/-- `project` (lib.rs 267-285); `dbg!` is the identity. -/
def project (args : ProjectArgs) (fuel : ℕ) : Option (List State × ℕ) :=
  if args.validate = false then none
  else
    let start := State.new args.start_year args.roth_present_value
      args.ira_present_value args.basis_value args.starting_cash
    shortest_path (fun s => successors s args) (fun s => args.end_year < s.year)
      add32 (fun a b => decide (a < b)) 0 fuel start

/-! ## Specification-side definitions for analysing the search engine

These definitions are not part of the source; they give names to the
mathematical objects the claims compare the engine against: the list of all
root-to-terminal paths in DFS order, the "keep the first strict maximum" fold
the engine's accumulator performs, and the predicate expressing that a given
fuel bound covers every traversal the Rust recursion would make. -/

/-- All completed (root-to-terminal) paths reachable from `n` within `fuel`
steps, in the engine's depth-first visiting order, each with its accumulated
cost starting from `c`. -/
def terminalPaths {N C : Type} (succs : N → List (N × C)) (succQ : N → Bool)
    (addC : C → C → C) : ℕ → N → C → List (List N × C)
  | 0, _, _ => []
  | fuel + 1, n, c =>
    if succQ n then [([n], c)]
    else
      ((succs n).map
        (fun nc => (terminalPaths succs succQ addC fuel nc.1 (addC c nc.2)).map
          (fun pc => (n :: pc.1, pc.2)))).flatten

/-- One step of the accumulator update the engine performs at a terminal
state: install the candidate if there is no best yet, replace it if the
candidate's cost is strictly greater, and record whether an update
happened. -/
def bstep {N C : Type} (ltC : C → C → Bool) :
    Option (List N × C) × Bool → List N × C → Option (List N × C) × Bool
  | (none, _), q => (some q, true)
  | (some p, u), q => if ltC p.2 q.2 then (some q, true) else (some p, u)

/-- Folding `bstep` over a list of candidate paths. -/
def bfold {N C : Type} (ltC : C → C → Bool)
    (acc : Option (List N × C) × Bool) (l : List (List N × C)) :
    Option (List N × C) × Bool :=
  l.foldl (bstep ltC) acc

/-- `fuelOk fuel n` holds when every depth-first traversal from `n` reaches a
terminal state strictly within `fuel` steps, so that the fuelled embedding
`shortest_path_recursive` never hits its artificial fuel-exhaustion case and
computes exactly what the unbounded Rust recursion computes. -/
def fuelOk {N C : Type} (succs : N → List (N × C)) (succQ : N → Bool) :
    ℕ → N → Bool
  | 0, _ => false
  | fuel + 1, n => succQ n || (succs n).all (fun nc => fuelOk succs succQ fuel nc.1)

/-! ## Concrete scenarios used by the claims -/

/-- The end-to-end scenario of §8 of the spec (the `short_project` benchmark,
lib.rs 439-456): IRA $6000, Roth $5000, income $10000, 8% growth, 3%
inflation, born June 1955, horizon 2035→2040. The rate arguments are the
binary64 values of the decimal literals. -/
def shortArgs : ProjectArgs :=
  { yearly_taxable_income_excluding_ira := 10000
    inflation_effective_annual_rate := F64.div (F64.ofNat 3) (F64.ofNat 100)
    roth_present_value := 5000
    roth_effective_annual_rate := F64.div (F64.ofNat 8) (F64.ofNat 100)
    ira_present_value := 6000
    ira_effective_annual_rate := F64.div (F64.ofNat 8) (F64.ofNat 100)
    basis_value := 0
    birth_year := 1955
    birth_month := 6
    start_year := 2035
    end_year := 2040
    starting_cash := 5000 }

/-- A scenario that passes validation (all rates are within `[0,1]`, the
basis does not exceed the IRA value, the dates are ordered) on which the
very first transition makes the liquidation value collapse: zero growth with
100% inflation wipes the IRA while external income is zero. -/
def shrinkArgs : ProjectArgs :=
  { yearly_taxable_income_excluding_ira := 0
    inflation_effective_annual_rate := one64
    roth_present_value := 0
    roth_effective_annual_rate := ⟨0, 0⟩
    ira_present_value := 1000
    ira_effective_annual_rate := ⟨0, 0⟩
    basis_value := 0
    birth_year := 2000
    birth_month := 6
    start_year := 2035
    end_year := 2035
    starting_cash := 0 }

/-- Like `shrinkArgs` but with a nonzero basis (still within validation:
basis 500 ≤ IRA 1000). After one year the IRA balance truncates to zero
while the basis stays 500, so `maximum_after_tax_cash` of the successor
state underflows `ira - basis`. -/
def basisArgs : ProjectArgs :=
  { yearly_taxable_income_excluding_ira := 0
    inflation_effective_annual_rate := one64
    roth_present_value := 0
    roth_effective_annual_rate := ⟨0, 0⟩
    ira_present_value := 1000
    ira_effective_annual_rate := ⟨0, 0⟩
    basis_value := 500
    birth_year := 2000
    birth_month := 6
    start_year := 2035
    end_year := 2035
    starting_cash := 0 }

/-- A validated scenario with `end_year = u16::MAX`: the terminal test
`year > end_year` can never hold for a `u16` year, and the yearly

`year + 1` wraps around, so the Rust recursion never terminates (debug
builds panic on the overflow). All balances are zero so that the search
tree is a single infinite chain. -/
def wrapArgs : ProjectArgs :=
  { yearly_taxable_income_excluding_ira := 0
    inflation_effective_annual_rate := ⟨0, 0⟩
    roth_present_value := 0
    roth_effective_annual_rate := ⟨0, 0⟩
    ira_present_value := 0
    ira_effective_annual_rate := ⟨0, 0⟩
    basis_value := 0
    birth_year := 65533
    birth_month := 1
    start_year := 65533
    end_year := 65535
    starting_cash := 0 }

/-- `project` diverges on `args`: no fuel bound ever suffices, i.e. the Rust
recursion never returns. -/
def projectDiverges (args : ProjectArgs) : Prop :=
  ∀ fuel : ℕ, project args fuel = none

/-- The relative rounding error of one binary64 operation in this program's
value range: `2^-53`. -/
def rndEps : ℚ := 1 / 2 ^ 53

/-- Prefix a node onto a recorded path, keeping its cost. -/
def consPath {N C : Type} (n : N) (pc : List N × C) : List N × C :=
  (n :: pc.1, pc.2)

/-- `PathTo succs succQ addC n c p pc`: starting at node `n` with accumulated
cost `c`, the node list `p` is a complete path ending at a terminal node,
with total accumulated cost `pc`. This is the specification-side notion of
"a path from the initial state to a terminal state" in the claims. -/
inductive PathTo {N C : Type} (succs : N → List (N × C)) (succQ : N → Bool)
    (addC : C → C → C) : N → C → List N → C → Prop where
  | terminal (n : N) (c : C) : succQ n = true → PathTo succs succQ addC n c [n] c
  | step (n : N) (c : C) (m : N) (w : C) (p : List N) (pc : C) :
      succQ n = false → (m, w) ∈ succs n →
      PathTo succs succQ addC m (addC c w) p pc →
      PathTo succs succQ addC n c (n :: p) pc

/-- A two-leaf graph on which `shortest_path` demonstrably keeps the
higher-cost path: the root `0` has terminal children `1` (edge cost 3,
visited first) and `2` (edge cost 5). -/
def twoLeafSuccs : ℕ → List (ℕ × ℕ) := fun n => if n = 0 then [(1, 3), (2, 5)] else []

/-- Terminal predicate for `twoLeafSuccs`: every nonzero node. -/
def twoLeafDone : ℕ → Bool := fun n => decide (0 < n)

/-- The rollover amount an action requests (lib.rs 126-129). -/
def Action.rolloverAmount : Action → ℕ
  | Action.Continue => 0
  | Action.RolloverThenContinue x => x

/-- The post-withdrawal, post-growth IRA balance computed inside
`take_action` (lib.rs 142); exposed for the basis-allocation claims. -/
def postWithdrawalIra (s : State) (rollover rmd : ℕ) (ira_rate inflation : F64) : ℕ :=
  (F64.mul (F64.ofNat (sub32 (sub32 s.ira rmd) rollover))
    (F64.sub (F64.add one64 ira_rate) inflation)).toU32

/-- The basis percentage computed inside `take_action` (lib.rs 144-148):
note the branch is on the post-withdrawal IRA being nonzero, not on the
divisor being nonzero. -/
def basisPercentOf (basis ira rmd rollover : ℕ) : ℕ :=
  if ira ≠ 0 then basis / add32 (add32 ira rmd) rollover else 0

/-- All `u32`/`u16` arithmetic inside `maximum_after_tax_cash` stays in
range (no debug-mode panic, no release-mode wrap): `ira - basis` does not
underflow, the sums fit, and the final subtraction of the tax does not
underflow. -/
def State.matcSafe (s : State) (income : ℕ) : Bool :=
  decide (s.basis ≤ s.ira) && decide (s.ira - s.basis + income < 2 ^ 32) &&
  decide (s.roth + s.total_cash + s.basis + (s.ira - s.basis + income) < 2 ^ 32) &&
  decide (get_tax (s.ira - s.basis + income) ≤
    s.roth + s.total_cash + s.basis + (s.ira - s.basis + income))

/-- All machine arithmetic inside one `take_action` call (including the two
`maximum_after_tax_cash` evaluations and the final cost difference) stays in
range: no `u32`/`u16` overflow or underflow, no saturating `f64 → u32` cast.
Vacuously true when the action is rejected. -/
def State.takeActionSafe (s : State) (action : Action) (birth_year birth_month
    income : ℕ) (roth_rate ira_rate inflation : F64) : Bool :=
  match s.take_action action birth_year birth_month income roth_rate ira_rate
    inflation with
  | none => true
  | some (s2, _) =>
    let rollover := action.rolloverAmount
    let rmd := get_rmd birth_year birth_month s.year s.ira
    let bp := if s2.ira ≠ 0 then s.basis / (s2.ira + rmd + rollover) else 0
    let tax := get_tax ((1 - bp) * (rmd + rollover) + income)
    decide (rollover + rmd < 2 ^ 32) &&
    decide (s.roth + rollover < 2 ^ 32) &&
    decide ((F64.mul (F64.ofNat (s.roth + rollover))
      (F64.sub (F64.add one64 roth_rate) inflation)).floor < 2 ^ 32) &&
    decide ((F64.mul (F64.ofNat (s.ira - rmd - rollover))
      (F64.sub (F64.add one64 ira_rate) inflation)).floor < 2 ^ 32) &&
    decide (s2.ira + rmd + rollover < 2 ^ 32) &&
    decide (bp ≤ 1) &&
    decide (bp * (rmd + rollover) ≤ s.basis) &&
    decide ((1 - bp) * (rmd + rollover) + income < 2 ^ 32) &&
    decide (rmd + income < 2 ^ 32) &&
    decide (tax ≤ rmd + income) &&
    decide (s.total_cash + (rmd + income - tax) < 2 ^ 32) &&
    decide (s.total_tax + tax < 2 ^ 32) &&
    decide (s.year + 1 < 2 ^ 16) &&
    s.matcSafe income && s2.matcSafe income &&
    decide (s.maximum_after_tax_cash income ≤ s2.maximum_after_tax_cash income)

end RothCalc

/-! # Theorems

First the arithmetic foundation: correctness of `bitlen`, the rounding-error
envelope of `norm53` and of each binary64 operation, and the translation
between exact values and the integer representation. -/

open RothCalc

theorem bitlenAux_zero (fuel : ℕ) : bitlenAux fuel 0 = 0 := by
  cases fuel <;> rfl

theorem bitlenAux_spec : ∀ fuel n : ℕ, 0 < n → n < 2 ^ fuel →
    2 ^ (bitlenAux fuel n - 1) ≤ n ∧ n < 2 ^ bitlenAux fuel n := by
  intro fuel
  induction fuel with
  | zero => intro n h0 h1; simp at h1; omega
  | succ f ih =>
    intro n h0 h1
    rw [bitlenAux, if_neg (by omega)]
    rcases Nat.lt_or_ge n 2 with h2 | h2
    · have hn1 : n = 1 := by omega
      subst hn1
      simp [bitlenAux_zero]
    · have h1' : n < 2 ^ f * 2 := by rw [pow_succ] at h1; exact h1
      have hd0 : 0 < n / 2 := Nat.div_pos h2 (by norm_num)
      have hdlt : n / 2 < 2 ^ f := by omega
      obtain ⟨hlo, hhi⟩ := ih (n / 2) hd0 hdlt
      have hb1 : 1 ≤ bitlenAux f (n / 2) := by
        rcases Nat.eq_zero_or_pos (bitlenAux f (n / 2)) with h | h
        · rw [h] at hhi; simp at hhi; omega
        · exact h
      have e1 : 2 ^ bitlenAux f (n / 2) = 2 ^ (bitlenAux f (n / 2) - 1) * 2 := by
        have hsucc : bitlenAux f (n / 2) - 1 + 1 = bitlenAux f (n / 2) := by omega
        rw [← hsucc, pow_succ, Nat.add_sub_cancel]
      have e2 : 2 ^ (bitlenAux f (n / 2) + 1) = 2 ^ bitlenAux f (n / 2) * 2 :=
        pow_succ 2 _
      rw [Nat.add_sub_cancel]
      omega

theorem bitlen_spec {n : ℕ} (h0 : 0 < n) (h : n < 2 ^ 2000) :
    2 ^ (bitlen n - 1) ≤ n ∧ n < 2 ^ bitlen n :=
  bitlenAux_spec 2000 n h0 h

theorem F64.val_mk (a : ℕ) (b : ℤ) : (F64.mk a b).val = (a : ℚ) * (2:ℚ) ^ b := rfl

theorem F64.val_nonneg (f : F64) : 0 ≤ f.val := by
  have : (0:ℚ) < (2:ℚ) ^ f.e := zpow_pos (by norm_num) f.e
  have : (0:ℚ) ≤ (f.m : ℚ) := Nat.cast_nonneg f.m
  rw [F64.val]
  positivity

theorem norm53_of_lt {m : ℕ} {e : ℤ} (h : m < 2 ^ 53) : norm53 m e = ⟨m, e⟩ := by
  unfold norm53
  rw [if_pos h]

theorem zpow_add_natCast_q (e : ℤ) (k : ℕ) :
    (2:ℚ) ^ (e + (k:ℤ)) = ((2 ^ k : ℕ) : ℚ) * (2:ℚ) ^ e := by
  rw [zpow_add₀ (by norm_num : (2:ℚ) ≠ 0), zpow_natCast]
  push_cast
  ring

theorem norm53_val_le {m : ℕ} (e : ℤ) (hm2 : m < 2 ^ 2000) :
    (norm53 m e).val ≤ (1 + rndEps) * ((m : ℚ) * (2:ℚ) ^ e) := by
  have h2e : (0:ℚ) < (2:ℚ) ^ e := zpow_pos (by norm_num) e
  have heps : (0:ℚ) ≤ rndEps := by norm_num [rndEps]
  by_cases h : m < 2 ^ 53
  · rw [norm53_of_lt h, F64.val_mk]
    clear hm2 h
    have hmq : (0:ℚ) ≤ (m:ℚ) * (2:ℚ) ^ e := by positivity
    linarith [mul_nonneg heps hmq]
  · push_neg at h
    have h0 : 0 < m := lt_of_lt_of_le (by norm_num) h
    obtain ⟨hL1, hL2⟩ := bitlen_spec h0 hm2
    clear hm2
    have hL54 : 54 ≤ bitlen m := by
      by_contra hcon
      have : 2 ^ bitlen m ≤ 2 ^ 53 := Nat.pow_le_pow_right (by norm_num) (by omega)
      omega
    unfold norm53
    rw [if_neg (not_lt.mpr h), F64.val_mk]
    set k := bitlen m - 53 with hkdef
    have hk1 : 1 ≤ k := by omega
    have hs : k - 1 + 1 = k := by omega
    have hkpow : 2 ^ (k - 1) * 2 = 2 ^ k := by
      calc 2 ^ (k - 1) * 2 = 2 ^ (k - 1 + 1) := (pow_succ 2 (k - 1)).symm
        _ = 2 ^ k := by rw [hs]
    have hdm := Nat.div_add_mod m (2 ^ k)
    have hmod : m % 2 ^ k < 2 ^ k := Nat.mod_lt m (by positivity)
    have e1 : (m / 2 ^ k + 1) * 2 ^ k = 2 ^ k * (m / 2 ^ k) + 2 ^ k := by ring
    have e2 : m / 2 ^ k * 2 ^ k = 2 ^ k * (m / 2 ^ k) := by ring
    have key : (if 2 * (m % 2 ^ k) > 2 ^ k ∨
          (2 * (m % 2 ^ k) = 2 ^ k ∧ m / 2 ^ k % 2 = 1) then m / 2 ^ k + 1
        else m / 2 ^ k) * 2 ^ k ≤ m + 2 ^ (k - 1) := by
      split
      · rename_i hcase
        rw [e1]
        rcases hcase with hgt | ⟨heq, _⟩ <;> omega
      · rw [e2]
        omega
    have hdom : 2 ^ (k - 1) * 2 ^ 53 ≤ m := by
      have hbig : 2 ^ (k - 1) * 2 ^ 53 = 2 ^ (bitlen m - 1) := by
        rw [← pow_add]
        congr 1
        omega
      rw [hbig]
      exact hL1
    set A := if 2 * (m % 2 ^ k) > 2 ^ k ∨
        (2 * (m % 2 ^ k) = 2 ^ k ∧ m / 2 ^ k % 2 = 1) then m / 2 ^ k + 1
      else m / 2 ^ k with hAdef
    clear hL1 hL2 hL54 h hdm hmod e1 e2
    rw [zpow_add_natCast_q]
    have keyq : (A : ℚ) * ((2 ^ k : ℕ) : ℚ) ≤ (1 + rndEps) * (m : ℚ) := by
      have k1 : ((A * 2 ^ k : ℕ) : ℚ) ≤ ((m + 2 ^ (k - 1) : ℕ) : ℚ) := by
        exact_mod_cast key
      have k2 : ((2 ^ (k - 1) * 2 ^ 53 : ℕ) : ℚ) ≤ ((m : ℕ) : ℚ) := by
        exact_mod_cast hdom
      push_cast at k1 k2 ⊢
      have hre : rndEps * ((2:ℚ) ^ (k - 1) * 2 ^ 53) = (2:ℚ) ^ (k - 1) := by
        rw [rndEps]
        field_simp
      have k3 : (2:ℚ) ^ (k - 1) ≤ rndEps * (m:ℚ) := by
        have h4 := mul_le_mul_of_nonneg_left k2 heps
        linarith
      nlinarith
    calc (A : ℚ) * (((2 ^ k : ℕ) : ℚ) * (2:ℚ) ^ e)
        = ((A : ℚ) * ((2 ^ k : ℕ) : ℚ)) * (2:ℚ) ^ e := by ring
      _ ≤ ((1 + rndEps) * (m : ℚ)) * (2:ℚ) ^ e :=
          mul_le_mul_of_nonneg_right keyq (le_of_lt h2e)
      _ = (1 + rndEps) * ((m : ℚ) * (2:ℚ) ^ e) := by ring

theorem norm53_val_ge {m : ℕ} (e : ℤ) (hm2 : m < 2 ^ 2000) :
    (1 - rndEps) * ((m : ℚ) * (2:ℚ) ^ e) ≤ (norm53 m e).val := by
  have h2e : (0:ℚ) < (2:ℚ) ^ e := zpow_pos (by norm_num) e
  have heps : (0:ℚ) ≤ rndEps := by norm_num [rndEps]
  by_cases h : m < 2 ^ 53
  · rw [norm53_of_lt h, F64.val_mk]
    clear hm2 h
    have hmq : (0:ℚ) ≤ (m:ℚ) * (2:ℚ) ^ e := by positivity
    linarith [mul_nonneg heps hmq]
  · push_neg at h
    have h0 : 0 < m := lt_of_lt_of_le (by norm_num) h
    obtain ⟨hL1, hL2⟩ := bitlen_spec h0 hm2
    clear hm2
    have hL54 : 54 ≤ bitlen m := by
      by_contra hcon
      have : 2 ^ bitlen m ≤ 2 ^ 53 := Nat.pow_le_pow_right (by norm_num) (by omega)
      omega
    unfold norm53
    rw [if_neg (not_lt.mpr h), F64.val_mk]
    set k := bitlen m - 53 with hkdef
    have hk1 : 1 ≤ k := by omega
    have hs : k - 1 + 1 = k := by omega
    have hkpow : 2 ^ (k - 1) * 2 = 2 ^ k := by
      calc 2 ^ (k - 1) * 2 = 2 ^ (k - 1 + 1) := (pow_succ 2 (k - 1)).symm
        _ = 2 ^ k := by rw [hs]
    have hdm := Nat.div_add_mod m (2 ^ k)
    have hmod : m % 2 ^ k < 2 ^ k := Nat.mod_lt m (by positivity)
    have e1 : (m / 2 ^ k + 1) * 2 ^ k = 2 ^ k * (m / 2 ^ k) + 2 ^ k := by ring
    have e2 : m / 2 ^ k * 2 ^ k = 2 ^ k * (m / 2 ^ k) := by ring
    have key : m ≤ (if 2 * (m % 2 ^ k) > 2 ^ k ∨
          (2 * (m % 2 ^ k) = 2 ^ k ∧ m / 2 ^ k % 2 = 1) then m / 2 ^ k + 1
        else m / 2 ^ k) * 2 ^ k + 2 ^ (k - 1) := by
      split
      · rw [e1]
        omega
      · rename_i hcase
        push_neg at hcase
        have hr2 := hcase.1
        rw [e2]
        omega
    have hdom : 2 ^ (k - 1) * 2 ^ 53 ≤ m := by
      have hbig : 2 ^ (k - 1) * 2 ^ 53 = 2 ^ (bitlen m - 1) := by
        rw [← pow_add]
        congr 1
        omega
      rw [hbig]
      exact hL1
    set A := if 2 * (m % 2 ^ k) > 2 ^ k ∨
        (2 * (m % 2 ^ k) = 2 ^ k ∧ m / 2 ^ k % 2 = 1) then m / 2 ^ k + 1
      else m / 2 ^ k with hAdef
    clear hL1 hL2 hL54 h hdm hmod e1 e2
    rw [zpow_add_natCast_q]
    have keyq : (1 - rndEps) * (m : ℚ) ≤ (A : ℚ) * ((2 ^ k : ℕ) : ℚ) := by
      have k1 : ((m : ℕ) : ℚ) ≤ ((A * 2 ^ k + 2 ^ (k - 1) : ℕ) : ℚ) := by
        exact_mod_cast key
      have k2 : ((2 ^ (k - 1) * 2 ^ 53 : ℕ) : ℚ) ≤ ((m : ℕ) : ℚ) := by
        exact_mod_cast hdom
      push_cast at k1 k2 ⊢
      have hre : rndEps * ((2:ℚ) ^ (k - 1) * 2 ^ 53) = (2:ℚ) ^ (k - 1) := by
        rw [rndEps]
        field_simp
      have k3 : (2:ℚ) ^ (k - 1) ≤ rndEps * (m:ℚ) := by
        have h4 := mul_le_mul_of_nonneg_left k2 heps
        linarith
      nlinarith
    calc (1 - rndEps) * ((m : ℚ) * (2:ℚ) ^ e)
        = ((1 - rndEps) * (m : ℚ)) * (2:ℚ) ^ e := by ring
      _ ≤ ((A : ℚ) * ((2 ^ k : ℕ) : ℚ)) * (2:ℚ) ^ e :=
          mul_le_mul_of_nonneg_right keyq (le_of_lt h2e)
      _ = (A : ℚ) * (((2 ^ k : ℕ) : ℚ) * (2:ℚ) ^ e) := by ring

theorem norm53_m_le {m : ℕ} (e : ℤ) (hm2 : m < 2 ^ 2000) :
    (norm53 m e).m ≤ 2 ^ 53 := by
  by_cases h : m < 2 ^ 53
  · rw [norm53_of_lt h]
    exact le_of_lt h
  · push_neg at h
    have h0 : 0 < m := lt_of_lt_of_le (by norm_num) h
    obtain ⟨hL1, hL2⟩ := bitlen_spec h0 hm2
    clear hm2
    unfold norm53
    rw [if_neg (not_lt.mpr h)]
    show (if 2 * (m % 2 ^ (bitlen m - 53)) > 2 ^ (bitlen m - 53) ∨
        (2 * (m % 2 ^ (bitlen m - 53)) = 2 ^ (bitlen m - 53) ∧
          m / 2 ^ (bitlen m - 53) % 2 = 1) then m / 2 ^ (bitlen m - 53) + 1
      else m / 2 ^ (bitlen m - 53)) ≤ 2 ^ 53
    set k := bitlen m - 53 with hkdef
    have hdiv : m / 2 ^ k < 2 ^ 53 := by
      have hL54 : 54 ≤ bitlen m := by
        by_contra hcon
        have : 2 ^ bitlen m ≤ 2 ^ 53 := Nat.pow_le_pow_right (by norm_num) (by omega)
        omega
      have hup : m < 2 ^ k * 2 ^ 53 := by
        rw [← pow_add]
        have hekb : k + 53 = bitlen m := by omega
        rw [hekb]
        exact hL2
      rcases Nat.lt_or_ge (m / 2 ^ k) (2 ^ 53) with hq | hq
      · exact hq
      · exfalso
        have h1 : 2 ^ k * 2 ^ 53 ≤ 2 ^ k * (m / 2 ^ k) := Nat.mul_le_mul_left _ hq
        have h2 := Nat.div_add_mod m (2 ^ k)
        omega
    split <;> omega

theorem F64.mant_val (f : F64) (e : ℤ) (h : e ≤ f.e) :
    ((f.mant e : ℕ) : ℚ) * (2:ℚ) ^ e = f.val := by
  rw [F64.mant, F64.val]
  have h1 : ((f.e - e).toNat : ℤ) = f.e - e := Int.toNat_of_nonneg (by omega)
  push_cast
  rw [← zpow_natCast (2:ℚ) (f.e - e).toNat, h1, mul_assoc,
    ← zpow_add₀ (by norm_num : (2:ℚ) ≠ 0)]
  have h2 : f.e - e + e = f.e := by omega
  rw [h2]

theorem F64.mant_le_iff (a b : F64) (e : ℤ) (ha : e ≤ a.e) (hb : e ≤ b.e) :
    (a.mant e ≤ b.mant e) ↔ a.val ≤ b.val := by
  rw [← F64.mant_val a e ha, ← F64.mant_val b e hb]
  have h2e : (0:ℚ) < (2:ℚ) ^ e := zpow_pos (by norm_num) e
  constructor
  · intro h
    exact mul_le_mul_of_nonneg_right (by exact_mod_cast h) (le_of_lt h2e)
  · intro h
    have := le_of_mul_le_mul_right h h2e
    exact_mod_cast this

theorem F64.mant_lt_iff (a b : F64) (e : ℤ) (ha : e ≤ a.e) (hb : e ≤ b.e) :
    (a.mant e < b.mant e) ↔ a.val < b.val := by
  have h1 := F64.mant_le_iff b a e hb ha
  constructor
  · intro h
    by_contra hcon
    push_neg at hcon
    have := h1.mpr hcon
    omega
  · intro h
    by_contra hcon
    push_neg at hcon
    exact absurd (h1.mp hcon) (not_le.mpr h)

theorem F64.ble_iff (a b : F64) : F64.ble a b = true ↔ a.val ≤ b.val := by
  rw [F64.ble]
  simp only [decide_eq_true_eq]
  exact F64.mant_le_iff a b (min a.e b.e) (min_le_left _ _) (min_le_right _ _)

theorem F64.blt_iff (a b : F64) : F64.blt a b = true ↔ a.val < b.val := by
  rw [F64.blt]
  simp only [decide_eq_true_eq]
  exact F64.mant_lt_iff a b (min a.e b.e) (min_le_left _ _) (min_le_right _ _)

theorem F64.ofNat_val (n : ℕ) : (F64.ofNat n).val = (n : ℚ) := by
  rw [F64.ofNat, F64.val_mk]
  norm_num

theorem F64.mul_val_bounds (a b : F64) (hma : a.m ≤ 2 ^ 60) (hmb : b.m ≤ 2 ^ 60) :
    (1 - rndEps) * (a.val * b.val) ≤ (F64.mul a b).val ∧
    (F64.mul a b).val ≤ (1 + rndEps) * (a.val * b.val) := by
  have hprod : ((a.m * b.m : ℕ) : ℚ) * (2:ℚ) ^ (a.e + b.e) = a.val * b.val := by
    rw [F64.val, F64.val, zpow_add₀ (by norm_num : (2:ℚ) ≠ 0)]
    push_cast
    ring
  have hsm : a.m * b.m < 2 ^ 2000 := by
    calc a.m * b.m ≤ 2 ^ 60 * 2 ^ 60 := Nat.mul_le_mul hma hmb
      _ < 2 ^ 2000 := by
          rw [← pow_add]
          exact Nat.pow_lt_pow_right (by norm_num) (by norm_num)
  constructor
  · rw [F64.mul, ← hprod]
    exact norm53_val_ge (a.e + b.e) hsm
  · rw [F64.mul, ← hprod]
    exact norm53_val_le (a.e + b.e) hsm

theorem F64.mant_small (a : F64) (e : ℤ) (hma : a.m ≤ 2 ^ 60) (hea : a.e ≤ 700)
    (he : -700 ≤ e) : a.mant e ≤ 2 ^ 1460 := by
  rw [F64.mant]
  have h1 : (a.e - e).toNat ≤ 1400 := by omega
  calc a.m * 2 ^ (a.e - e).toNat ≤ 2 ^ 60 * 2 ^ 1400 :=
      Nat.mul_le_mul hma (Nat.pow_le_pow_right (by norm_num) h1)
    _ = 2 ^ 1460 := by rw [← pow_add]

theorem F64.add_val_bounds (a b : F64) (hma : a.m ≤ 2 ^ 60) (hmb : b.m ≤ 2 ^ 60)
    (hea : a.e ≤ 700) (heb : b.e ≤ 700) (hea2 : -700 ≤ a.e) (heb2 : -700 ≤ b.e) :
    (1 - rndEps) * (a.val + b.val) ≤ (F64.add a b).val ∧
    (F64.add a b).val ≤ (1 + rndEps) * (a.val + b.val) := by
  have hmin1 : min a.e b.e ≤ a.e := min_le_left _ _
  have hmin2 : min a.e b.e ≤ b.e := min_le_right _ _
  have hsum : ((a.mant (min a.e b.e) + b.mant (min a.e b.e) : ℕ) : ℚ)
      * (2:ℚ) ^ (min a.e b.e) = a.val + b.val := by
    push_cast
    rw [add_mul]
    rw [F64.mant_val a _ hmin1, F64.mant_val b _ hmin2]
  have hsm : a.mant (min a.e b.e) + b.mant (min a.e b.e) < 2 ^ 2000 := by
    have h1 := F64.mant_small a (min a.e b.e) hma hea (by omega)
    have h2 := F64.mant_small b (min a.e b.e) hmb heb (by omega)
    have h3 : (2:ℕ) ^ 1461 = 2 ^ 1460 * 2 := pow_succ 2 1460
    have h4 : (2:ℕ) ^ 1461 < 2 ^ 2000 :=
      Nat.pow_lt_pow_right (by norm_num) (by norm_num)
    omega
  constructor
  · rw [F64.add, ← hsum]
    exact norm53_val_ge _ hsm
  · rw [F64.add, ← hsum]
    exact norm53_val_le _ hsm

theorem F64.sub_val_bounds (a b : F64) (hma : a.m ≤ 2 ^ 60) (hmb : b.m ≤ 2 ^ 60)
    (hea : a.e ≤ 700) (heb : b.e ≤ 700) (hea2 : -700 ≤ a.e) (heb2 : -700 ≤ b.e)
    (hv : b.val ≤ a.val) :
    (1 - rndEps) * (a.val - b.val) ≤ (F64.sub a b).val ∧
    (F64.sub a b).val ≤ (1 + rndEps) * (a.val - b.val) := by
  have hmin1 : min a.e b.e ≤ a.e := min_le_left _ _
  have hmin2 : min a.e b.e ≤ b.e := min_le_right _ _
  have hmle : b.mant (min a.e b.e) ≤ a.mant (min a.e b.e) :=
    (F64.mant_le_iff b a _ hmin2 hmin1).mpr hv
  have hdiff : ((a.mant (min a.e b.e) - b.mant (min a.e b.e) : ℕ) : ℚ)
      * (2:ℚ) ^ (min a.e b.e) = a.val - b.val := by
    rw [Nat.cast_sub hmle, sub_mul]
    rw [F64.mant_val a _ hmin1, F64.mant_val b _ hmin2]
  have hsm : a.mant (min a.e b.e) - b.mant (min a.e b.e) < 2 ^ 2000 := by
    have h1 := F64.mant_small a (min a.e b.e) hma hea (by omega)
    have h2 : (2:ℕ) ^ 1460 < 2 ^ 2000 :=
      Nat.pow_lt_pow_right (by norm_num) (by norm_num)
    omega
  constructor
  · rw [F64.sub, ← hdiff]
    exact norm53_val_ge _ hsm
  · rw [F64.sub, ← hdiff]
    exact norm53_val_le _ hsm

theorem F64.floor_spec (f : F64) : f.floor = ⌊f.val⌋₊ := by
  rw [F64.floor, F64.val]
  split
  · rename_i h
    have h1 : (2:ℚ) ^ f.e = ((2 ^ f.e.toNat : ℕ) : ℚ) := by
      have h2 : f.e = (f.e.toNat : ℤ) := by omega
      rw [h2, zpow_natCast]
      norm_cast
    rw [h1]
    have h3 : (f.m : ℚ) * ((2 ^ f.e.toNat : ℕ) : ℚ) = ((f.m * 2 ^ f.e.toNat : ℕ) : ℚ) := by
      push_cast
      ring
    rw [h3, Nat.floor_natCast]
  · rename_i h
    push_neg at h
    set s := (-f.e).toNat with hs
    have h2 : f.e = -(s : ℤ) := by omega
    have h1 : (2:ℚ) ^ f.e = ((2 ^ s : ℕ) : ℚ)⁻¹ := by
      rw [h2, zpow_neg, zpow_natCast]
      norm_cast
    rw [h1, ← div_eq_mul_inv, Nat.floor_div_nat, Nat.floor_natCast]

theorem F64.toU32_lt (f : F64) : f.toU32 < 2 ^ 32 := by
  rw [F64.toU32]
  have : (2:ℕ) ^ 32 - 1 < 2 ^ 32 := by norm_num
  omega

theorem F64.toU32_le_val (f : F64) : (f.toU32 : ℚ) ≤ f.val := by
  rw [F64.toU32]
  have h1 : ((min f.floor (2 ^ 32 - 1) : ℕ) : ℚ) ≤ ((f.floor : ℕ) : ℚ) :=
    Nat.cast_le.mpr (min_le_left _ _)
  have h2 : ((f.floor : ℕ) : ℚ) ≤ f.val := by
    rw [F64.floor_spec]
    exact Nat.floor_le (F64.val_nonneg f)
  linarith

theorem F64.le_toU32 (f : F64) (x : ℕ) (hx : (x : ℚ) ≤ f.val) (hx2 : x ≤ 2 ^ 32 - 1) :
    x ≤ f.toU32 := by
  rw [F64.toU32]
  have h1 : x ≤ f.floor := by
    rw [F64.floor_spec]
    exact Nat.le_floor hx
  omega

theorem F64.toU32_le (f : F64) (x : ℕ) (hx : f.val < (x : ℚ)) : f.toU32 ≤ x := by
  rw [F64.toU32]
  have h1 : f.floor ≤ x := by
    rw [F64.floor_spec]
    have := Nat.floor_le_floor (le_of_lt hx)
    rw [Nat.floor_natCast] at this
    omega
  omega

/-- A binary64 value with a 53-bit mantissa that is strictly greater than 1
is at least `1 + 2^-52` (the gap above 1 in binary64). -/
theorem F64.one_gap (f : F64) (hm : f.m ≤ 2 ^ 53) (h : 1 < f.val) :
    1 + ((1 : ℚ) / 2 ^ 52) ≤ f.val := by
  rw [F64.val] at h ⊢
  rcases Int.lt_or_le f.e 0 with he | he
  · obtain ⟨s, hse⟩ : ∃ s : ℕ, f.e = -(s : ℤ) := ⟨(-f.e).toNat, by omega⟩
    rw [hse, zpow_neg, zpow_natCast] at h ⊢
    have hp : (0:ℚ) < (2:ℚ) ^ s := by positivity
    have hgt : (2:ℚ) ^ s < (f.m : ℚ) := by
      by_contra hcon
      push_neg at hcon
      have hle : (f.m : ℚ) * ((2:ℚ) ^ s)⁻¹ ≤ 1 := by
        rw [mul_inv_le_iff₀ hp, one_mul]
        exact hcon
      linarith
    have hgtn : 2 ^ s < f.m := by
      have : ((2 ^ s : ℕ) : ℚ) < (f.m : ℚ) := by push_cast; exact hgt
      exact_mod_cast this
    have hsle : s ≤ 52 := by
      by_contra hcon
      push_neg at hcon
      have : 2 ^ 53 ≤ 2 ^ s := Nat.pow_le_pow_right (by norm_num) (by omega)
      omega
    have hmge : 2 ^ s + 1 ≤ f.m := by omega
    have step1 : ((2 ^ s + 1 : ℕ) : ℚ) * ((2:ℚ) ^ s)⁻¹ ≤ (f.m : ℚ) * ((2:ℚ) ^ s)⁻¹ := by
      have hc : ((2 ^ s + 1 : ℕ) : ℚ) ≤ (f.m : ℚ) := by exact_mod_cast hmge
      exact mul_le_mul_of_nonneg_right hc (by positivity)
    have step2 : (1:ℚ) + ((2:ℚ) ^ s)⁻¹ = ((2 ^ s + 1 : ℕ) : ℚ) * ((2:ℚ) ^ s)⁻¹ := by
      push_cast
      field_simp
    have step3 : (1:ℚ) / 2 ^ 52 ≤ ((2:ℚ) ^ s)⁻¹ := by
      rw [div_le_iff₀ (by positivity : (0:ℚ) < (2:ℚ) ^ 52), inv_mul_eq_div,
        le_div_iff₀ hp]
      have : (2:ℚ) ^ s ≤ (2:ℚ) ^ 52 := by
        have hc : ((2 ^ s : ℕ) : ℚ) ≤ ((2 ^ 52 : ℕ) : ℚ) :=
          Nat.cast_le.mpr (Nat.pow_le_pow_right (by norm_num) hsle)
        push_cast at hc
        exact hc
      linarith
    linarith
  · obtain ⟨s, hse⟩ : ∃ s : ℕ, f.e = (s : ℤ) := ⟨f.e.toNat, by omega⟩
    rw [hse, zpow_natCast] at h ⊢
    have hint : ((f.m * 2 ^ s : ℕ) : ℚ) = (f.m : ℚ) * (2:ℚ) ^ s := by
      push_cast
      ring
    have hgt1 : 1 < f.m * 2 ^ s := by
      by_contra hcon
      push_neg at hcon
      have hle : ((f.m * 2 ^ s : ℕ) : ℚ) ≤ 1 := by exact_mod_cast hcon
      rw [hint] at hle
      linarith
    have hge2 : (2:ℚ) ≤ ((f.m * 2 ^ s : ℕ) : ℚ) := by exact_mod_cast hgt1
    rw [hint] at hge2
    linarith

theorem pow_toNat_split (t : ℤ) :
    ((2 ^ t.toNat : ℕ) : ℚ) = (2:ℚ) ^ t * ((2 ^ (-t).toNat : ℕ) : ℚ) := by
  rcases Int.le_or_lt 0 t with h | h
  · obtain ⟨s, hs⟩ : ∃ s : ℕ, t = (s : ℤ) := ⟨t.toNat, by omega⟩
    subst hs
    have h1 : ((s : ℤ)).toNat = s := by omega
    have h2 : (-(s : ℤ)).toNat = 0 := by omega
    rw [h1, h2, zpow_natCast]
    push_cast
    ring
  · obtain ⟨s, hs⟩ : ∃ s : ℕ, t = -(s : ℤ) := ⟨(-t).toNat, by omega⟩
    subst hs
    have h1 : (-(s : ℤ)).toNat = 0 := by omega
    have h2 : (- -(s : ℤ)).toNat = s := by omega
    rw [h1, h2, zpow_neg, zpow_natCast]
    have hp : (0:ℚ) < (2:ℚ) ^ s := by positivity
    push_cast
    field_simp

theorem F64.div_of_zero (a b : F64) (ha : a.m = 0) : F64.div a b = ⟨0, 0⟩ := by
  simp only [F64.div]
  rw [if_pos (Or.inl ha)]

set_option maxHeartbeats 2000000 in
set_option maxRecDepth 8000 in
theorem F64.div_val_bounds (a b : F64) (ha : a.m ≠ 0) (hb : b.m ≠ 0)
    (hma : a.m ≤ 2 ^ 53) (hmb : b.m ≤ 2 ^ 53) :
    (1 - rndEps) * (a.val / b.val) ≤ (F64.div a b).val ∧
    (F64.div a b).val ≤ (1 + rndEps) * (a.val / b.val) := by
  have heps : (0:ℚ) ≤ rndEps := by norm_num [rndEps]
  -- bit lengths of the operand mantissas
  have hsmall : (2:ℕ) ^ 53 < 2 ^ 2000 := Nat.pow_lt_pow_right (by norm_num) (by norm_num)
  obtain ⟨hla1, hla2⟩ := bitlen_spec (Nat.pos_of_ne_zero ha) (by omega)
  obtain ⟨hlb1, hlb2⟩ := bitlen_spec (Nat.pos_of_ne_zero hb) (by omega)
  have hla0 : 1 ≤ bitlen a.m := by
    rcases Nat.eq_zero_or_pos (bitlen a.m) with h | h
    · rw [h] at hla2
      simp at hla2
      omega
    · exact h
  have hlb0 : 1 ≤ bitlen b.m := by
    rcases Nat.eq_zero_or_pos (bitlen b.m) with h | h
    · rw [h] at hlb2
      simp at hlb2
      omega
    · exact h
  have hla54 : bitlen a.m ≤ 54 := by
    by_contra hcon
    have : 2 ^ 54 ≤ 2 ^ (bitlen a.m - 1) := Nat.pow_le_pow_right (by norm_num) (by omega)
    have : (2:ℕ) ^ 53 < 2 ^ 54 := Nat.pow_lt_pow_right (by norm_num) (by norm_num)
    omega
  simp only [F64.div]
  rw [if_neg (by push_neg; exact ⟨ha, hb⟩)]
  set la := bitlen a.m with hladef
  set lb := bitlen b.m with hlbdef
  set t : ℤ := 55 + (lb : ℤ) - (la : ℤ) with htdef
  set A := a.m * 2 ^ t.toNat with hAdef
  set B := b.m * 2 ^ (-t).toNat with hBdef
  have hB0 : 0 < B := by
    rw [hBdef]
    exact Nat.mul_pos (Nat.pos_of_ne_zero hb) (by positivity)
  have hA0 : 0 < A := by
    rw [hAdef]
    exact Nat.mul_pos (Nat.pos_of_ne_zero ha) (by positivity)
  -- the scaled quotient has between 55 and 56 bits
  have hK1 : 2 ^ 54 * B ≤ A := by
    rcases Int.le_or_lt 0 t with hts | hts
    · have htn : ((t.toNat : ℕ) : ℤ) = t := Int.toNat_of_nonneg hts
      have hsn : (-t).toNat = 0 := by omega
      have htv : t.toNat = 55 + lb - la := by omega
      have hle : la ≤ 55 + lb := by omega
      rw [hAdef, hBdef, hsn, htv]
      have e1 : 2 ^ 54 * (b.m * 2 ^ 0) ≤ 2 ^ 54 * 2 ^ lb := by
        have : b.m * 2 ^ 0 ≤ 2 ^ lb := by omega
        exact Nat.mul_le_mul_left _ this
      have e2 : (2:ℕ) ^ 54 * 2 ^ lb ≤ 2 ^ (la - 1) * 2 ^ (55 + lb - la) := by
        rw [← pow_add, ← pow_add]
        exact Nat.pow_le_pow_right (by norm_num) (by omega)
      have e3 : 2 ^ (la - 1) * 2 ^ (55 + lb - la) ≤ a.m * 2 ^ (55 + lb - la) :=
        Nat.mul_le_mul_right _ hla1
      omega
    · have htn : t.toNat = 0 := by omega
      have hsn : ((((-t).toNat) : ℕ) : ℤ) = -t := Int.toNat_of_nonneg (by omega)
      have hsv : (-t).toNat = la - lb - 55 := by omega
      have hge : 55 + lb ≤ la := by omega
      rw [hAdef, hBdef, htn, hsv]
      have e1 : 2 ^ 54 * (b.m * 2 ^ (la - lb - 55)) ≤ 2 ^ 54 * (2 ^ lb * 2 ^ (la - lb - 55)) := by
        have : b.m * 2 ^ (la - lb - 55) ≤ 2 ^ lb * 2 ^ (la - lb - 55) :=
          Nat.mul_le_mul_right _ (by omega)
        exact Nat.mul_le_mul_left _ this
      have e2 : (2:ℕ) ^ 54 * (2 ^ lb * 2 ^ (la - lb - 55)) ≤ 2 ^ (la - 1) := by
        rw [← pow_add, ← pow_add]
        exact Nat.pow_le_pow_right (by norm_num) (by omega)
      have e3 : 2 ^ (la - 1) ≤ a.m * 2 ^ 0 := by
        simpa using hla1
      omega
  have hK2 : A < 2 ^ 56 * B := by
    rcases Int.le_or_lt 0 t with hts | hts
    · have htn : ((t.toNat : ℕ) : ℤ) = t := Int.toNat_of_nonneg hts
      have hsn : (-t).toNat = 0 := by omega
      have htv : t.toNat = 55 + lb - la := by omega
      have hle : la ≤ 55 + lb := by omega
      rw [hAdef, hBdef, hsn, htv]
      have e1 : a.m * 2 ^ (55 + lb - la) < 2 ^ la * 2 ^ (55 + lb - la) :=
        mul_lt_mul_of_pos_right hla2 (by positivity)
      have e2 : (2:ℕ) ^ la * 2 ^ (55 + lb - la) ≤ 2 ^ 56 * 2 ^ (lb - 1) := by
        rw [← pow_add, ← pow_add]
        exact Nat.pow_le_pow_right (by norm_num) (by omega)
      have e3 : (2:ℕ) ^ 56 * 2 ^ (lb - 1) ≤ 2 ^ 56 * (b.m * 2 ^ 0) := by
        have : (2:ℕ) ^ (lb - 1) ≤ b.m * 2 ^ 0 := by simpa using hlb1
        exact Nat.mul_le_mul_left _ this
      omega
    · have htn : t.toNat = 0 := by omega
      have hsn : ((((-t).toNat) : ℕ) : ℤ) = -t := Int.toNat_of_nonneg (by omega)
      have hsv : (-t).toNat = la - lb - 55 := by omega
      have hge : 55 + lb ≤ la := by omega
      rw [hAdef, hBdef, htn, hsv]
      have e1 : a.m * 2 ^ 0 < 2 ^ la := by simpa using hla2
      have e2 : (2:ℕ) ^ la ≤ 2 ^ 56 * (2 ^ (lb - 1) * 2 ^ (la - lb - 55)) := by
        rw [← pow_add, ← pow_add]
        exact Nat.pow_le_pow_right (by norm_num) (by omega)
      have e3 : (2:ℕ) ^ 56 * (2 ^ (lb - 1) * 2 ^ (la - lb - 55)) ≤
          2 ^ 56 * (b.m * 2 ^ (la - lb - 55)) := by
        have : (2:ℕ) ^ (lb - 1) * 2 ^ (la - lb - 55) ≤ b.m * 2 ^ (la - lb - 55) :=
          Nat.mul_le_mul_right _ hlb1
        exact Nat.mul_le_mul_left _ this
      omega
  set q := A / B with hqdef
  set r := A % B with hrdef
  have hq54 : 2 ^ 54 ≤ q := (Nat.le_div_iff_mul_le hB0).mpr (by omega)
  have hq56 : q < 2 ^ 56 := Nat.div_lt_of_lt_mul (by omega)
  have hq0 : 0 < q := by omega
  obtain ⟨hlq1, hlq2⟩ := bitlen_spec hq0 (by
    have : (2:ℕ) ^ 56 < 2 ^ 2000 := Nat.pow_lt_pow_right (by norm_num) (by norm_num)
    omega)
  have hlq55 : 55 ≤ bitlen q := by
    by_contra hcon
    have : 2 ^ bitlen q ≤ 2 ^ 54 := Nat.pow_le_pow_right (by norm_num) (by omega)
    omega
  have hlq56 : bitlen q ≤ 56 := by
    by_contra hcon
    have : 2 ^ 56 ≤ 2 ^ (bitlen q - 1) := Nat.pow_le_pow_right (by norm_num) (by omega)
    omega
  set k := bitlen q - 53 with hkdef
  have hk2 : 2 ≤ k := by omega
  have hq52k : 2 ^ 52 * 2 ^ k ≤ q := by
    have : (2:ℕ) ^ 52 * 2 ^ k = 2 ^ (bitlen q - 1) := by
      rw [← pow_add]
      congr 1
      omega
    omega
  have hhalf : 2 ^ k / 2 = 2 ^ (k - 1) := by
    have h1 : (2:ℕ) ^ k = 2 ^ (k - 1) * 2 := by
      calc (2:ℕ) ^ k = 2 ^ (k - 1 + 1) := by congr 1; omega
        _ = 2 ^ (k - 1) * 2 := pow_succ 2 (k - 1)
    omega
  have hkpow : (2:ℕ) ^ k = 2 ^ (k - 1) * 2 := by
    calc (2:ℕ) ^ k = 2 ^ (k - 1 + 1) := by congr 1; omega
      _ = 2 ^ (k - 1) * 2 := pow_succ 2 (k - 1)
  set cut := q % 2 ^ k with hcutdef
  set low := q / 2 ^ k with hlowdef
  have hqdm : 2 ^ k * low + cut = q := Nat.div_add_mod q (2 ^ k)
  have hcutlt : cut < 2 ^ k := Nat.mod_lt q (by positivity)
  have hadm : B * q + r = A := Nat.div_add_mod A B
  have hrB : r < B := Nat.mod_lt A hB0
  rw [hhalf]
  -- everything now moves to ℚ
  have hBq : (0:ℚ) < (B:ℚ) := by exact_mod_cast hB0
  have hbvq : (0:ℚ) < b.val := by
    rw [F64.val]
    have : (0:ℚ) < (b.m : ℚ) := by exact_mod_cast Nat.pos_of_ne_zero hb
    have h2 : (0:ℚ) < (2:ℚ) ^ b.e := zpow_pos (by norm_num) b.e
    positivity
  have hAq : (A:ℚ) = (B:ℚ) * ((2:ℚ) ^ k * low + cut) + r := by
    have h1 : ((B * q + r : ℕ) : ℚ) = (A:ℚ) := by exact_mod_cast hadm
    have h2 : ((2 ^ k * low + cut : ℕ) : ℚ) = (q:ℚ) := by exact_mod_cast hqdm
    push_cast at h1 h2 ⊢
    rw [h2]
    linarith [h1]
  -- the exact quotient as a value: a.val / b.val = (A / B) * 2 ^ (a.e - b.e - t)
  have hsplit := pow_toNat_split t
  have hx2 : (0:ℚ) < ((2 ^ (-t).toNat : ℕ) : ℚ) := by positivity
  have hAc : (A:ℚ) = (a.m:ℚ) * ((2:ℚ) ^ t * ((2 ^ (-t).toNat : ℕ) : ℚ)) := by
    rw [hAdef, Nat.cast_mul, hsplit]
  have hBc : (B:ℚ) = (b.m:ℚ) * ((2 ^ (-t).toNat : ℕ) : ℚ) := by
    rw [hBdef, Nat.cast_mul]
  clear_value cut low
  clear_value k
  clear_value q r
  clear_value A B
  clear_value t
  clear_value la lb
  have hval : a.val / b.val = ((A:ℚ) / (B:ℚ)) * (2:ℚ) ^ (a.e - b.e - t) := by
    have hXne : ((2 ^ (-t).toNat : ℕ) : ℚ) ≠ 0 := ne_of_gt hx2
    have hbm0 : (b.m:ℚ) ≠ 0 := by exact_mod_cast hb
    have h2t : (2:ℚ) ^ t ≠ 0 := zpow_ne_zero t (by norm_num)
    have h2be : (2:ℚ) ^ b.e ≠ 0 := zpow_ne_zero b.e (by norm_num)
    have hsplit2 : (2:ℚ) ^ (a.e - b.e - t) = 2 ^ a.e / (2 ^ b.e * 2 ^ t) := by
      rw [zpow_sub₀ (by norm_num : (2:ℚ) ≠ 0), zpow_sub₀ (by norm_num : (2:ℚ) ≠ 0),
        div_div]
    rw [F64.val, F64.val, hAc, hBc, hsplit2]
    field_simp
    ring
  -- error bound for the rounded mantissa, uniformly over the rounding choice
  clear hsmall hla0 hla54 hlb0 hlq1 hlq2 hlq55 hlq56 hq54 hq56 hK1 hK2 hma hmb
  simp only [decide_eq_true_eq]
  have hBq0 : (0:ℚ) ≤ (B:ℚ) := le_of_lt hBq
  have hAqr : (A:ℚ) = 2 ^ k * low * B + cut * B + r := by
    rw [hAq]
    ring
  have hkq : (2:ℚ) ^ k = 2 ^ (k - 1) * 2 := by exact_mod_cast hkpow
  have hcutq : ((cut:ℚ) + 1) ≤ (2:ℚ) ^ k := by exact_mod_cast hcutlt
  have hrBq : (r:ℚ) < (B:ℚ) := by exact_mod_cast hrB
  have hrq0 : (0:ℚ) ≤ (r:ℚ) := Nat.cast_nonneg r
  have hcq0 : (0:ℚ) ≤ (cut:ℚ) := Nat.cast_nonneg cut
  have key : (A:ℚ) - 2 ^ (k - 1) * B ≤
      ((if cut > 2 ^ (k - 1) ∨ (cut = 2 ^ (k - 1) ∧ (r ≠ 0 ∨ low % 2 = 1))
        then low + 1 else low : ℕ) : ℚ) * 2 ^ k * B ∧
      ((if cut > 2 ^ (k - 1) ∨ (cut = 2 ^ (k - 1) ∧ (r ≠ 0 ∨ low % 2 = 1))
        then low + 1 else low : ℕ) : ℚ) * 2 ^ k * B ≤ (A:ℚ) + 2 ^ (k - 1) * B := by
    split
    · rename_i hC
      have hge : 2 ^ (k - 1) ≤ cut := by
        rcases hC with hgt | ⟨heq, _⟩ <;> omega
      have hgeq : ((2 ^ (k - 1) : ℕ) : ℚ) ≤ (cut:ℚ) := by exact_mod_cast hge
      push_cast at hgeq ⊢
      have m1 : (B:ℚ) * ((cut:ℚ) + 1) ≤ (B:ℚ) * 2 ^ k :=
        mul_le_mul_of_nonneg_left hcutq hBq0
      have m2 : (B:ℚ) * 2 ^ (k - 1) ≤ (B:ℚ) * cut :=
        mul_le_mul_of_nonneg_left hgeq hBq0
      constructor
      · nlinarith [hAqr, m1, hrBq]
      · nlinarith [hAqr, m2, hrq0, hkq]
    · rename_i hC
      push_neg at hC
      obtain ⟨hle, htie⟩ := hC
      have hleq : (cut:ℚ) ≤ ((2 ^ (k - 1) : ℕ) : ℚ) := by exact_mod_cast hle
      push_cast at hleq ⊢
      constructor
      · by_cases hcc : cut = 2 ^ (k - 1)
        · obtain ⟨hr0, _⟩ := htie hcc
          have hccq : (cut:ℚ) = (2:ℚ) ^ (k - 1) := by exact_mod_cast hcc
          have hrq : (r:ℚ) = 0 := by exact_mod_cast hr0
          nlinarith [hAqr, hccq, hrq]
        · have hlt : cut + 1 ≤ 2 ^ (k - 1) := by omega
          have hltq : ((cut:ℚ) + 1) ≤ (2:ℚ) ^ (k - 1) := by exact_mod_cast hlt
          have m1 : (B:ℚ) * ((cut:ℚ) + 1) ≤ (B:ℚ) * 2 ^ (k - 1) :=
            mul_le_mul_of_nonneg_left hltq hBq0
          nlinarith [hAqr, m1, hrBq]
      · have m0 : (0:ℚ) ≤ (cut:ℚ) * B := mul_nonneg hcq0 hBq0
        have m0b : (0:ℚ) ≤ (2:ℚ) ^ (k - 1) * B := by positivity
        nlinarith [hAqr, m0, m0b, hrq0]
  -- the absolute error is at most rndEps relative to the exact quotient
  have hdomq : (2:ℚ) ^ (k - 1) * B * 2 ^ 53 ≤ (A:ℚ) := by
    have m4 : (B:ℚ) * q ≤ (A:ℚ) := by
      have h1 : ((B * q : ℕ) : ℚ) ≤ (A:ℚ) := by exact_mod_cast Nat.le.intro hadm
      push_cast at h1
      exact h1
    have m5 : ((2 ^ 52 * 2 ^ k : ℕ) : ℚ) ≤ (q:ℚ) := by exact_mod_cast hq52k
    push_cast at m5
    have m6 : (B:ℚ) * ((2:ℚ) ^ 52 * 2 ^ k) ≤ (B:ℚ) * q :=
      mul_le_mul_of_nonneg_left m5 hBq0
    nlinarith [m4, m6, hkq]
  have hre : rndEps * (2:ℚ) ^ 53 = 1 := by norm_num [rndEps]
  have hdome : (2:ℚ) ^ (k - 1) * B ≤ rndEps * A := by
    have h4 := mul_le_mul_of_nonneg_left hdomq heps
    nlinarith [h4, hre]
  obtain ⟨keyL, keyU⟩ := key
  set moq := ((if cut > 2 ^ (k - 1) ∨ (cut = 2 ^ (k - 1) ∧ (r ≠ 0 ∨ low % 2 = 1))
    then low + 1 else low : ℕ) : ℚ) with hmoq
  have hwexp : (2:ℚ) ^ (a.e - b.e - t + (k:ℤ)) =
      (2:ℚ) ^ (a.e - b.e - t) * (2:ℚ) ^ k := by
    rw [zpow_add₀ (by norm_num : (2:ℚ) ≠ 0), zpow_natCast]
  have hw : (0:ℚ) < (2:ℚ) ^ (a.e - b.e - t) := zpow_pos (by norm_num) _
  have hstructval : (F64.mk (if cut > 2 ^ (k - 1) ∨
        (cut = 2 ^ (k - 1) ∧ (r ≠ 0 ∨ low % 2 = 1)) then low + 1 else low)
      (a.e - b.e - t + (k:ℤ))).val =
      moq * ((2:ℚ) ^ (a.e - b.e - t) * (2:ℚ) ^ k) := by
    rw [F64.val_mk, hwexp, hmoq]
  rw [hstructval, hval]
  have hinner1 : (1 - rndEps) * ((A:ℚ) / B) ≤ moq * 2 ^ k := by
    have h5 : (1 - rndEps) * ((A:ℚ) / B) = ((1 - rndEps) * A) / B := by ring
    rw [h5, div_le_iff₀ hBq]
    nlinarith [keyL, hdome]
  have hinner2 : moq * 2 ^ k ≤ (1 + rndEps) * ((A:ℚ) / B) := by
    have h5 : (1 + rndEps) * ((A:ℚ) / B) = ((1 + rndEps) * A) / B := by ring
    rw [h5, le_div_iff₀ hBq]
    nlinarith [keyU, hdome]
  constructor
  · calc (1 - rndEps) * ((A:ℚ) / B * (2:ℚ) ^ (a.e - b.e - t))
        = ((1 - rndEps) * ((A:ℚ) / B)) * (2:ℚ) ^ (a.e - b.e - t) := by ring
      _ ≤ (moq * 2 ^ k) * (2:ℚ) ^ (a.e - b.e - t) :=
          mul_le_mul_of_nonneg_right hinner1 (le_of_lt hw)
      _ = moq * ((2:ℚ) ^ (a.e - b.e - t) * (2:ℚ) ^ k) := by ring
  · calc moq * ((2:ℚ) ^ (a.e - b.e - t) * (2:ℚ) ^ k)
        = (moq * 2 ^ k) * (2:ℚ) ^ (a.e - b.e - t) := by ring
      _ ≤ ((1 + rndEps) * ((A:ℚ) / B)) * (2:ℚ) ^ (a.e - b.e - t) :=
          mul_le_mul_of_nonneg_right hinner2 (le_of_lt hw)
      _ = (1 + rndEps) * ((A:ℚ) / B * (2:ℚ) ^ (a.e - b.e - t)) := by ring

theorem bitlenAux_le : ∀ fuel n : ℕ, bitlenAux fuel n ≤ fuel := by
  intro fuel
  induction fuel with
  | zero => intro n; rw [bitlenAux]
  | succ f ih =>
    intro n
    rw [bitlenAux]
    split
    · omega
    · have := ih (n / 2)
      omega

theorem bitlen_le {n c : ℕ} (h : n < 2 ^ c) (hc : c ≤ 2000) : bitlen n ≤ c := by
  rcases Nat.eq_zero_or_pos n with h0 | h0
  · subst h0
    rw [bitlen, bitlenAux_zero]
    omega
  · obtain ⟨h1, h2⟩ := bitlen_spec h0 (by
      have : (2:ℕ) ^ c ≤ 2 ^ 2000 := Nat.pow_le_pow_right (by norm_num) hc
      omega)
    by_contra hcon
    push_neg at hcon
    have : 2 ^ c ≤ 2 ^ (bitlen n - 1) := Nat.pow_le_pow_right (by norm_num) (by omega)
    omega

theorem norm53_e_ge (m : ℕ) (e : ℤ) : e ≤ (norm53 m e).e := by
  rw [norm53]
  split
  · exact le_refl e
  · simp only
    omega

theorem norm53_e_le {m c : ℕ} (e : ℤ) (hm : m < 2 ^ c) (hc : c ≤ 2000) :
    (norm53 m e).e ≤ e + c := by
  have hb := bitlen_le hm hc
  rw [norm53]
  split
  · show e ≤ e + (c:ℤ)
    omega
  · simp only
    omega

/-- Value bounds for the correctly rounded binary64 of `n / 100`
(the tax-rate literals in the source). -/
theorem rate_val_bounds (n : ℕ) (hn : n ≠ 0) (hn2 : n ≤ 2 ^ 53) :
    (1 - rndEps) * ((n:ℚ) / 100) ≤ (F64.div (F64.ofNat n) (F64.ofNat 100)).val ∧
    (F64.div (F64.ofNat n) (F64.ofNat 100)).val ≤ (1 + rndEps) * ((n:ℚ) / 100) := by
  have h := F64.div_val_bounds (F64.ofNat n) (F64.ofNat 100) hn (by decide) hn2 (by decide)
  rw [F64.ofNat_val, F64.ofNat_val] at h
  have h100 : ((100 : ℕ) : ℚ) = 100 := by norm_num
  rw [h100] at h
  exact h

set_option maxHeartbeats 2000000 in
set_option maxRecDepth 8000 in
/-- One step of a tax bracket arm `rate * (d) + base`, for any rate between
1/11 and 2/5 and base at most 200000: the truncated result is monotone in `d`
and grows by at most one dollar per input dollar. -/
theorem tax_arm_step (r B : F64) (d : ℕ) (hd : d + 1 < 2 ^ 32)
    (hrm : r.m ≤ 2 ^ 53) (hre1 : -60 ≤ r.e) (hre2 : r.e ≤ 10)
    (hBm : B.m ≤ 2 ^ 53) (hBe1 : -10 ≤ B.e) (hBe2 : B.e ≤ 30)
    (hr1 : (1:ℚ) / 11 ≤ r.val) (hr2 : r.val ≤ (2:ℚ) / 5)
    (hB2 : B.val ≤ 200000) :
    (F64.add (F64.mul r (F64.ofNat d)) B).toU32 ≤
      (F64.add (F64.mul r (F64.ofNat (d + 1))) B).toU32 ∧
    (F64.add (F64.mul r (F64.ofNat (d + 1))) B).toU32 ≤
      (F64.add (F64.mul r (F64.ofNat d)) B).toU32 + 1 := by
  have heps : rndEps = 1 / 2 ^ 53 := rfl
  have hB0 : (0:ℚ) ≤ B.val := F64.val_nonneg B
  have hr0 : (0:ℚ) ≤ r.val := F64.val_nonneg r
  -- value envelope of the computed arm, as a function of the exact value
  have envelope : ∀ x : ℕ, x < 2 ^ 32 →
      r.val * x + B.val - 1 / 2 ^ 20 ≤ (F64.add (F64.mul r (F64.ofNat x)) B).val ∧
      (F64.add (F64.mul r (F64.ofNat x)) B).val ≤ r.val * x + B.val + 1 / 2 ^ 20 := by
    intro x hx
    have hxq : (x:ℚ) < 2 ^ 32 := by exact_mod_cast hx
    have hxq0 : (0:ℚ) ≤ (x:ℚ) := Nat.cast_nonneg x
    have hmul := F64.mul_val_bounds r (F64.ofNat x)
      (le_trans hrm (by norm_num)) (by
        show x ≤ 2 ^ 60
        have : (2:ℕ) ^ 32 ≤ 2 ^ 60 := Nat.pow_le_pow_right (by norm_num) (by norm_num)
        omega)
    rw [F64.ofNat_val] at hmul
    obtain ⟨hmul1, hmul2⟩ := hmul
    -- the product mantissa is below 2^85, so the rounded product keeps a
    -- 53-bit mantissa and an exponent near r.e
    have hpm : r.m * x < 2 ^ 85 := by
      have h1 : r.m * x ≤ 2 ^ 53 * x := Nat.mul_le_mul_right x hrm
      have h2 : 2 ^ 53 * x < 2 ^ 53 * 2 ^ 32 := by
        have hx0 : x < 2 ^ 32 := hx
        exact mul_lt_mul_of_pos_left hx0 (by positivity)
      have h3 : (2:ℕ) ^ 53 * 2 ^ 32 = 2 ^ 85 := by rw [← pow_add]
      omega
    have hPm : (F64.mul r (F64.ofNat x)).m ≤ 2 ^ 53 := by
      show (norm53 (r.m * x) (r.e + 0)).m ≤ 2 ^ 53
      exact norm53_m_le _ (by
        have : (2:ℕ) ^ 85 < 2 ^ 2000 := Nat.pow_lt_pow_right (by norm_num) (by norm_num)
        omega)
    have hPe1 : r.e + 0 ≤ (F64.mul r (F64.ofNat x)).e := by
      show r.e + 0 ≤ (norm53 (r.m * x) (r.e + 0)).e
      exact norm53_e_ge _ _
    have hPe2 : (F64.mul r (F64.ofNat x)).e ≤ r.e + 0 + 85 := by
      show (norm53 (r.m * x) (r.e + 0)).e ≤ r.e + 0 + 85
      exact norm53_e_le _ hpm (by norm_num)
    have hadd := F64.add_val_bounds (F64.mul r (F64.ofNat x)) B
      (le_trans hPm (by norm_num)) (le_trans hBm (by norm_num))
      (by omega) (by omega) (by omega) (by omega)
    obtain ⟨hadd1, hadd2⟩ := hadd
    have hPv0 : (0:ℚ) ≤ (F64.mul r (F64.ofNat x)).val := F64.val_nonneg _
    have hEb : r.val * x ≤ (2:ℚ) / 5 * 2 ^ 32 := by
      have := mul_le_mul hr2 (le_of_lt hxq) hxq0 (by norm_num)
      linarith
    constructor
    · nlinarith [hmul1, hadd1, hEb, heps]
    · nlinarith [hmul2, hadd2, hEb, heps]
  obtain ⟨hlo1, hhi1⟩ := envelope d (by omega)
  obtain ⟨hlo2, hhi2⟩ := envelope (d + 1) hd
  have hdq : ((d + 1 : ℕ) : ℚ) = (d : ℚ) + 1 := by push_cast; ring
  rw [hdq] at hlo2 hhi2
  -- both computed values stay far below 2^32, so toU32 is a pure floor
  have hdqlt : (d:ℚ) + 1 < 2 ^ 32 := by exact_mod_cast hd
  have hsmall1 : (F64.add (F64.mul r (F64.ofNat d)) B).val < 2 ^ 31 := by
    nlinarith [hhi1, hdqlt]
  have hsmall2 : (F64.add (F64.mul r (F64.ofNat (d + 1))) B).val < 2 ^ 31 := by
    nlinarith [hhi2, hdqlt]
  have htoU : ∀ g : F64, g.val < 2 ^ 31 → g.toU32 = ⌊g.val⌋₊ := by
    intro g hg
    rw [F64.toU32, F64.floor_spec]
    have h1 : ⌊g.val⌋₊ ≤ 2 ^ 32 - 1 := by
      have h2 : g.val < ((2 ^ 32 - 1 : ℕ) : ℚ) := by
        have : ((2 ^ 32 - 1 : ℕ) : ℚ) = 2 ^ 32 - 1 := by norm_num
        linarith [this]
      have := Nat.floor_le_floor (le_of_lt h2)
      rw [Nat.floor_natCast] at this
      omega
    omega
  rw [htoU _ hsmall1, htoU _ hsmall2]
  have hv1 : (F64.add (F64.mul r (F64.ofNat d)) B).val ≤
      (F64.add (F64.mul r (F64.ofNat (d + 1))) B).val := by
    nlinarith [hlo2, hhi1, hr1]
  have hv2 : (F64.add (F64.mul r (F64.ofNat (d + 1))) B).val <
      (F64.add (F64.mul r (F64.ofNat d)) B).val + 1 := by
    nlinarith [hlo1, hhi2, hr2]
  constructor
  · exact Nat.floor_le_floor hv1
  · have h1 : (F64.add (F64.mul r (F64.ofNat d)) B).val <
        ⌊(F64.add (F64.mul r (F64.ofNat d)) B).val⌋₊ + 1 :=
      Nat.lt_floor_add_one _
    have h2 : (F64.add (F64.mul r (F64.ofNat (d + 1))) B).val <
        (⌊(F64.add (F64.mul r (F64.ofNat d)) B).val⌋₊ + 1 : ℕ) + 1 := by
      push_cast
      linarith
    have h4 : ⌊(F64.add (F64.mul r (F64.ofNat (d + 1))) B).val⌋₊ <
        ⌊(F64.add (F64.mul r (F64.ofNat d)) B).val⌋₊ + 2 := by
      rw [Nat.floor_lt (F64.val_nonneg _)]
      push_cast
      linarith
    omega

set_option maxHeartbeats 2000000 in
set_option maxRecDepth 8000 in
/-- One step of the bottom tax arm `rate * d` (no base amount). -/
theorem tax_arm0_step (r : F64) (d : ℕ) (hd : d + 1 < 2 ^ 32)
    (hrm : r.m ≤ 2 ^ 53)
    (hr1 : (1:ℚ) / 11 ≤ r.val) (hr2 : r.val ≤ (2:ℚ) / 5) :
    (F64.mul r (F64.ofNat d)).toU32 ≤ (F64.mul r (F64.ofNat (d + 1))).toU32 ∧
    (F64.mul r (F64.ofNat (d + 1))).toU32 ≤ (F64.mul r (F64.ofNat d)).toU32 + 1 := by
  have heps : rndEps = 1 / 2 ^ 53 := rfl
  have hr0 : (0:ℚ) ≤ r.val := F64.val_nonneg r
  have envelope : ∀ x : ℕ, x < 2 ^ 32 →
      r.val * x - 1 / 2 ^ 20 ≤ (F64.mul r (F64.ofNat x)).val ∧
      (F64.mul r (F64.ofNat x)).val ≤ r.val * x + 1 / 2 ^ 20 := by
    intro x hx
    have hxq : (x:ℚ) < 2 ^ 32 := by exact_mod_cast hx
    have hxq0 : (0:ℚ) ≤ (x:ℚ) := Nat.cast_nonneg x
    have hmul := F64.mul_val_bounds r (F64.ofNat x)
      (le_trans hrm (by norm_num)) (by
        show x ≤ 2 ^ 60
        have : (2:ℕ) ^ 32 ≤ 2 ^ 60 := Nat.pow_le_pow_right (by norm_num) (by norm_num)
        omega)
    rw [F64.ofNat_val] at hmul
    obtain ⟨hmul1, hmul2⟩ := hmul
    have hEb : r.val * x ≤ (2:ℚ) / 5 * 2 ^ 32 := by
      have := mul_le_mul hr2 (le_of_lt hxq) hxq0 (by norm_num)
      linarith
    have hE0 : (0:ℚ) ≤ r.val * x := mul_nonneg hr0 hxq0
    constructor
    · nlinarith [hmul1, hEb, heps]
    · nlinarith [hmul2, hEb, heps]
  obtain ⟨hlo1, hhi1⟩ := envelope d (by omega)
  obtain ⟨hlo2, hhi2⟩ := envelope (d + 1) hd
  have hdq : ((d + 1 : ℕ) : ℚ) = (d : ℚ) + 1 := by push_cast; ring
  rw [hdq] at hlo2 hhi2
  have hdqlt : (d:ℚ) + 1 < 2 ^ 32 := by exact_mod_cast hd
  have hsmall1 : (F64.mul r (F64.ofNat d)).val < 2 ^ 31 := by
    nlinarith [hhi1, hdqlt]
  have hsmall2 : (F64.mul r (F64.ofNat (d + 1))).val < 2 ^ 31 := by
    nlinarith [hhi2, hdqlt]
  have htoU : ∀ g : F64, g.val < 2 ^ 31 → g.toU32 = ⌊g.val⌋₊ := by
    intro g hg
    rw [F64.toU32, F64.floor_spec]
    have h1 : ⌊g.val⌋₊ ≤ 2 ^ 32 - 1 := by
      have h2 : g.val < ((2 ^ 32 - 1 : ℕ) : ℚ) := by
        have h3 : ((2 ^ 32 - 1 : ℕ) : ℚ) = 2 ^ 32 - 1 := by norm_num
        linarith [h3]
      have := Nat.floor_le_floor (le_of_lt h2)
      rw [Nat.floor_natCast] at this
      omega
    omega
  rw [htoU _ hsmall1, htoU _ hsmall2]
  have hv1 : (F64.mul r (F64.ofNat d)).val ≤ (F64.mul r (F64.ofNat (d + 1))).val := by
    nlinarith [hlo2, hhi1, hr1]
  have hv2 : (F64.mul r (F64.ofNat (d + 1))).val <
      (F64.mul r (F64.ofNat d)).val + 1 := by
    nlinarith [hlo1, hhi2, hr2]
  constructor
  · exact Nat.floor_le_floor hv1
  · have h1 : (F64.mul r (F64.ofNat d)).val < ⌊(F64.mul r (F64.ofNat d)).val⌋₊ + 1 :=
      Nat.lt_floor_add_one _
    have h4 : ⌊(F64.mul r (F64.ofNat (d + 1))).val⌋₊ <
        ⌊(F64.mul r (F64.ofNat d)).val⌋₊ + 2 := by
      rw [Nat.floor_lt (F64.val_nonneg _)]
      push_cast
      linarith
    omega

theorem get_tax_arm37 {t : ℕ} (h1 : 510300 < t) :
    get_tax t = (F64.add (F64.mul rate37 (F64.ofNat (t - 510300))) base37).toU32 := by
  rw [get_tax, if_pos (by omega)]

theorem get_tax_arm35 {t : ℕ} (h1 : 204100 < t) (h2 : t ≤ 510300) :
    get_tax t = (F64.add (F64.mul rate35 (F64.ofNat (t - 204100))) base35).toU32 := by
  rw [get_tax, if_neg (by omega), if_pos (by omega)]

theorem get_tax_arm32 {t : ℕ} (h1 : 160725 < t) (h2 : t ≤ 204100) :
    get_tax t = (F64.add (F64.mul rate32 (F64.ofNat (t - 160725))) base32).toU32 := by
  rw [get_tax, if_neg (by omega), if_neg (by omega), if_pos (by omega)]

theorem get_tax_arm24 {t : ℕ} (h1 : 84200 < t) (h2 : t ≤ 160725) :
    get_tax t = (F64.add (F64.mul rate24 (F64.ofNat (t - 84200))) base24).toU32 := by
  rw [get_tax, if_neg (by omega), if_neg (by omega), if_neg (by omega),
    if_pos (by omega)]

theorem get_tax_arm22 {t : ℕ} (h1 : 39475 < t) (h2 : t ≤ 84200) :
    get_tax t = (F64.add (F64.mul rate22 (F64.ofNat (t - 39475))) base22).toU32 := by
  rw [get_tax, if_neg (by omega), if_neg (by omega), if_neg (by omega),
    if_neg (by omega), if_pos (by omega)]

theorem get_tax_arm12 {t : ℕ} (h1 : 9700 < t) (h2 : t ≤ 39475) :
    get_tax t = (F64.add (F64.mul rate12 (F64.ofNat (t - 9700))) base12).toU32 := by
  rw [get_tax, if_neg (by omega), if_neg (by omega), if_neg (by omega),
    if_neg (by omega), if_neg (by omega), if_pos (by omega)]

theorem get_tax_arm10 {t : ℕ} (h1 : 0 < t) (h2 : t ≤ 9700) :
    get_tax t = (F64.mul rate10 (F64.ofNat t)).toU32 := by
  rw [get_tax, if_neg (by omega), if_neg (by omega), if_neg (by omega),
    if_neg (by omega), if_neg (by omega), if_neg (by omega), if_pos (by omega)]
theorem rate37_val_lo : (1:ℚ) / 11 ≤ rate37.val := by
  have h := (rate_val_bounds 37 (by norm_num) (by norm_num)).1
  have hn : (1:ℚ) / 11 ≤ (1 - rndEps) * ((37:ℕ) / 100) := by
    rw [rndEps]
    norm_num
  rw [rate37]
  linarith

theorem rate37_val_hi : rate37.val ≤ (2:ℚ) / 5 := by
  have h := (rate_val_bounds 37 (by norm_num) (by norm_num)).2
  have hn : (1 + rndEps) * ((37:ℕ) / 100) ≤ (2:ℚ) / 5 := by
    rw [rndEps]
    norm_num
  rw [rate37]
  linarith

theorem rate35_val_lo : (1:ℚ) / 11 ≤ rate35.val := by
  have h := (rate_val_bounds 35 (by norm_num) (by norm_num)).1
  have hn : (1:ℚ) / 11 ≤ (1 - rndEps) * ((35:ℕ) / 100) := by
    rw [rndEps]
    norm_num
  rw [rate35]
  linarith

theorem rate35_val_hi : rate35.val ≤ (2:ℚ) / 5 := by
  have h := (rate_val_bounds 35 (by norm_num) (by norm_num)).2
  have hn : (1 + rndEps) * ((35:ℕ) / 100) ≤ (2:ℚ) / 5 := by
    rw [rndEps]
    norm_num
  rw [rate35]
  linarith

theorem rate32_val_lo : (1:ℚ) / 11 ≤ rate32.val := by
  have h := (rate_val_bounds 32 (by norm_num) (by norm_num)).1
  have hn : (1:ℚ) / 11 ≤ (1 - rndEps) * ((32:ℕ) / 100) := by
    rw [rndEps]
    norm_num
  rw [rate32]
  linarith

theorem rate32_val_hi : rate32.val ≤ (2:ℚ) / 5 := by
  have h := (rate_val_bounds 32 (by norm_num) (by norm_num)).2
  have hn : (1 + rndEps) * ((32:ℕ) / 100) ≤ (2:ℚ) / 5 := by
    rw [rndEps]
    norm_num
  rw [rate32]
  linarith

theorem rate24_val_lo : (1:ℚ) / 11 ≤ rate24.val := by
  have h := (rate_val_bounds 24 (by norm_num) (by norm_num)).1
  have hn : (1:ℚ) / 11 ≤ (1 - rndEps) * ((24:ℕ) / 100) := by
    rw [rndEps]
    norm_num
  rw [rate24]
  linarith

theorem rate24_val_hi : rate24.val ≤ (2:ℚ) / 5 := by
  have h := (rate_val_bounds 24 (by norm_num) (by norm_num)).2
  have hn : (1 + rndEps) * ((24:ℕ) / 100) ≤ (2:ℚ) / 5 := by
    rw [rndEps]
    norm_num
  rw [rate24]
  linarith

theorem rate22_val_lo : (1:ℚ) / 11 ≤ rate22.val := by
  have h := (rate_val_bounds 22 (by norm_num) (by norm_num)).1
  have hn : (1:ℚ) / 11 ≤ (1 - rndEps) * ((22:ℕ) / 100) := by
    rw [rndEps]
    norm_num
  rw [rate22]
  linarith

theorem rate22_val_hi : rate22.val ≤ (2:ℚ) / 5 := by
  have h := (rate_val_bounds 22 (by norm_num) (by norm_num)).2
  have hn : (1 + rndEps) * ((22:ℕ) / 100) ≤ (2:ℚ) / 5 := by
    rw [rndEps]
    norm_num
  rw [rate22]
  linarith

theorem rate12_val_lo : (1:ℚ) / 11 ≤ rate12.val := by
  have h := (rate_val_bounds 12 (by norm_num) (by norm_num)).1
  have hn : (1:ℚ) / 11 ≤ (1 - rndEps) * ((12:ℕ) / 100) := by
    rw [rndEps]
    norm_num
  rw [rate12]
  linarith

theorem rate12_val_hi : rate12.val ≤ (2:ℚ) / 5 := by
  have h := (rate_val_bounds 12 (by norm_num) (by norm_num)).2
  have hn : (1 + rndEps) * ((12:ℕ) / 100) ≤ (2:ℚ) / 5 := by
    rw [rndEps]
    norm_num
  rw [rate12]
  linarith

theorem rate10_val_lo : (1:ℚ) / 11 ≤ rate10.val := by
  have h := (rate_val_bounds 10 (by norm_num) (by norm_num)).1
  have hn : (1:ℚ) / 11 ≤ (1 - rndEps) * ((10:ℕ) / 100) := by
    rw [rndEps]
    norm_num
  rw [rate10]
  linarith

theorem rate10_val_hi : rate10.val ≤ (2:ℚ) / 5 := by
  have h := (rate_val_bounds 10 (by norm_num) (by norm_num)).2
  have hn : (1 + rndEps) * ((10:ℕ) / 100) ≤ (2:ℚ) / 5 := by
    rw [rndEps]
    norm_num
  rw [rate10]
  linarith

theorem base37_val : base37.val = 307597 / 2 := by
  rw [base37, F64.val_mk]
  norm_num

theorem base35_val : base35.val = 93257 / 2 := by
  rw [base35, F64.val_mk]
  norm_num

theorem base32_val : base32.val = 65497 / 2 := by
  rw [base32, F64.val_mk]
  norm_num

theorem base24_val : base24.val = 28765 / 2 := by
  rw [base24, F64.val_mk]
  norm_num

theorem base22_val : base22.val = 4543 := by
  rw [base22, F64.val_mk]
  norm_num

theorem base12_val : base12.val = 970 := by
  rw [base12, F64.val_mk]
  norm_num

set_option maxRecDepth 40000 in
/-- `get_tax` grows by at most one dollar, and never shrinks, when the
taxable income grows by one dollar. -/
theorem get_tax_step (t : ℕ) (ht : t + 1 < 2 ^ 32) :
    get_tax t ≤ get_tax (t + 1) ∧ get_tax (t + 1) ≤ get_tax t + 1 := by
  rcases Nat.eq_zero_or_pos t with h0 | h0
  · subst h0
    decide
  rcases Nat.lt_or_ge t 9700 with hb1 | hb1
  · rw [get_tax_arm10 h0 (by omega), get_tax_arm10 (by omega) (by omega)]
    exact tax_arm0_step rate10 t (by omega) (by decide) rate10_val_lo rate10_val_hi
  rcases Nat.eq_or_lt_of_le hb1 with hb1e | hb1s
  · rw [← hb1e]
    decide
  rcases Nat.lt_or_ge t 39475 with hb2 | hb2
  · rw [get_tax_arm12 hb1s (by omega), get_tax_arm12 (by omega) (by omega)]
    have he : t + 1 - 9700 = t - 9700 + 1 := by omega
    rw [he]
    exact tax_arm_step rate12 base12 (t - 9700) (by omega) (by decide) (by decide)
      (by decide) (by decide) (by decide) (by decide) rate12_val_lo rate12_val_hi
      (by rw [base12_val]; norm_num)
  rcases Nat.eq_or_lt_of_le hb2 with hb2e | hb2s
  · rw [← hb2e]
    decide
  rcases Nat.lt_or_ge t 84200 with hb3 | hb3
  · rw [get_tax_arm22 hb2s (by omega), get_tax_arm22 (by omega) (by omega)]
    have he : t + 1 - 39475 = t - 39475 + 1 := by omega
    rw [he]
    exact tax_arm_step rate22 base22 (t - 39475) (by omega) (by decide) (by decide)
      (by decide) (by decide) (by decide) (by decide) rate22_val_lo rate22_val_hi
      (by rw [base22_val]; norm_num)
  rcases Nat.eq_or_lt_of_le hb3 with hb3e | hb3s
  · rw [← hb3e]
    decide
  rcases Nat.lt_or_ge t 160725 with hb4 | hb4
  · rw [get_tax_arm24 hb3s (by omega), get_tax_arm24 (by omega) (by omega)]
    have he : t + 1 - 84200 = t - 84200 + 1 := by omega
    rw [he]
    exact tax_arm_step rate24 base24 (t - 84200) (by omega) (by decide) (by decide)
      (by decide) (by decide) (by decide) (by decide) rate24_val_lo rate24_val_hi
      (by rw [base24_val]; norm_num)
  rcases Nat.eq_or_lt_of_le hb4 with hb4e | hb4s
  · rw [← hb4e]
    decide
  rcases Nat.lt_or_ge t 204100 with hb5 | hb5
  · rw [get_tax_arm32 hb4s (by omega), get_tax_arm32 (by omega) (by omega)]
    have he : t + 1 - 160725 = t - 160725 + 1 := by omega
    rw [he]
    exact tax_arm_step rate32 base32 (t - 160725) (by omega) (by decide) (by decide)
      (by decide) (by decide) (by decide) (by decide) rate32_val_lo rate32_val_hi
      (by rw [base32_val]; norm_num)
  rcases Nat.eq_or_lt_of_le hb5 with hb5e | hb5s
  · rw [← hb5e]
    decide
  rcases Nat.lt_or_ge t 510300 with hb6 | hb6
  · rw [get_tax_arm35 hb5s (by omega), get_tax_arm35 (by omega) (by omega)]
    have he : t + 1 - 204100 = t - 204100 + 1 := by omega
    rw [he]
    exact tax_arm_step rate35 base35 (t - 204100) (by omega) (by decide) (by decide)
      (by decide) (by decide) (by decide) (by decide) rate35_val_lo rate35_val_hi
      (by rw [base35_val]; norm_num)
  rcases Nat.eq_or_lt_of_le hb6 with hb6e | hb6s
  · rw [← hb6e]
    decide
  · rw [get_tax_arm37 hb6s, get_tax_arm37 (by omega)]
    have he : t + 1 - 510300 = t - 510300 + 1 := by omega
    rw [he]
    exact tax_arm_step rate37 base37 (t - 510300) (by omega) (by decide) (by decide)
      (by decide) (by decide) (by decide) (by decide) rate37_val_lo rate37_val_hi
      (by rw [base37_val]; norm_num)

theorem get_tax_mono {a b : ℕ} (h : a ≤ b) (hb : b < 2 ^ 32) :
    get_tax a ≤ get_tax b := by
  induction b, h using Nat.le_induction with
  | base => exact le_refl _
  | succ n hn ih =>
    have h1 := (get_tax_step n (by omega)).1
    have h2 := ih (by omega)
    omega

theorem get_tax_lipschitz {a b : ℕ} (h : a ≤ b) (hb : b < 2 ^ 32) :
    get_tax b ≤ get_tax a + (b - a) := by
  induction b, h using Nat.le_induction with
  | base => omega
  | succ n hn ih =>
    have h1 := (get_tax_step n (by omega)).2
    have h2 := ih (by omega)
    omega

theorem get_tax_le_self (t : ℕ) (ht : t < 2 ^ 32) : get_tax t ≤ t := by
  have h0 : get_tax 0 = 0 := by decide
  have h1 := get_tax_lipschitz (Nat.zero_le t) ht
  omega

theorem distribution_periods_length : DISTRIBUTION_PERIODS.length = 46 := by
  rw [DISTRIBUTION_PERIODS, List.length_map]
  rfl

theorem period_mem {birth_year birth_month year : ℕ} {d : F64}
    (h : get_rmd_distribution_period birth_year birth_month year = some d) :
    d ∈ DISTRIBUTION_PERIODS := by
  have hlen := distribution_periods_length
  rw [get_rmd_distribution_period] at h
  split at h
  · have hd : DISTRIBUTION_PERIODS.getD 0 ⟨0, 0⟩ = d := by
      exact Option.some.inj h
    rw [List.getD_eq_getElem _ _ (by omega)] at hd
    rw [← hd]
    exact List.getElem_mem _
  split at h
  · rename_i hage
    have hd : DISTRIBUTION_PERIODS.getD (year - birth_year - 70) ⟨0, 0⟩ = d :=
      Option.some.inj h
    rw [List.getD_eq_getElem _ _ (by omega)] at hd
    rw [← hd]
    exact List.getElem_mem _
  split at h
  · have hd : DISTRIBUTION_PERIODS.getD 45 ⟨0, 0⟩ = d := Option.some.inj h
    rw [List.getD_eq_getElem _ _ (by omega)] at hd
    rw [← hd]
    exact List.getElem_mem _
  · exact absurd h (by simp)

theorem table_facts : ∀ d ∈ DISTRIBUTION_PERIODS,
    d.m ≠ 0 ∧ d.m ≤ 2 ^ 53 ∧ (3:ℚ) / 2 ≤ d.val := by
  have hall : DISTRIBUTION_PERIODS.all
      (fun d => decide (d.m ≠ 0) && decide (d.m ≤ 2 ^ 53) &&
        F64.ble ⟨3, -1⟩ d) = true := by decide
  intro d hd
  have h := List.all_eq_true.mp hall d hd
  simp only [Bool.and_eq_true, decide_eq_true_eq] at h
  obtain ⟨⟨h1, h2⟩, h3⟩ := h
  refine ⟨h1, h2, ?_⟩
  have h4 := (F64.ble_iff ⟨3, -1⟩ d).mp h3
  have h5 : (F64.mk 3 (-1)).val = 3 / 2 := by
    rw [F64.val_mk]
    norm_num
  rw [h5] at h4
  exact h4

/-- The computed required minimum distribution never exceeds the prior IRA
balance; more precisely three times the RMD stays within `2·ira + 1`,
because every distribution-period divisor is at least 1.5. -/
theorem get_rmd_bound (birth_year birth_month year ira : ℕ) (hira : ira < 2 ^ 32) :
    3 * get_rmd birth_year birth_month year ira ≤ 2 * ira + 1 ∧
    get_rmd birth_year birth_month year ira ≤ ira := by
  rw [get_rmd]
  split
  · rename_i d hd
    rcases Nat.eq_zero_or_pos ira with h0 | h0
    · subst h0
      rw [F64.div_of_zero _ _ rfl]
      have : (F64.mk 0 0).toU32 = 0 := rfl
      rw [this]
      omega
    · obtain ⟨hm0, hm53, hval⟩ := table_facts d (period_mem hd)
      have hdv0 : (0:ℚ) < d.val := by linarith
      have hdiv := (F64.div_val_bounds (F64.ofNat ira) d (by show ira ≠ 0; omega) hm0
        (by
          show ira ≤ 2 ^ 53
          have : (2:ℕ) ^ 32 ≤ 2 ^ 53 := Nat.pow_le_pow_right (by norm_num) (by norm_num)
          omega) hm53).2
      rw [F64.ofNat_val] at hdiv
      have hq1 : (ira : ℚ) / d.val ≤ (ira : ℚ) / (3 / 2) := by
        apply div_le_div_of_nonneg_left (Nat.cast_nonneg ira) (by norm_num) hval
      have htou := F64.toU32_le_val (F64.div (F64.ofNat ira) d)
      have hiq : (ira : ℚ) < 2 ^ 32 := by exact_mod_cast hira
      have hiq0 : (0:ℚ) ≤ (ira : ℚ) := Nat.cast_nonneg ira
      have heps : rndEps = 1 / 2 ^ 53 := rfl
      have hkey : ((F64.div (F64.ofNat ira) d).toU32 : ℚ) * 3 ≤ 2 * ira + 1 := by
        nlinarith [hdiv, hq1, htou, hiq, heps]
      have hkeyn : (F64.div (F64.ofNat ira) d).toU32 * 3 ≤ 2 * ira + 1 := by
        exact_mod_cast hkey
      omega
  · omega

theorem take_action_none_iff (s : State) (action : Action) (birth_year birth_month
    income : ℕ) (roth_rate ira_rate inflation : F64) :
    s.take_action action birth_year birth_month income roth_rate ira_rate
      inflation = none ↔
    (s.ira < action.rolloverAmount ∨
     s.ira < add32 action.rolloverAmount (get_rmd birth_year birth_month s.year s.ira)) := by
  cases action <;>
    simp only [State.take_action, Action.rolloverAmount] <;>
    split_ifs with h1 h2 <;>
    simp_all

theorem take_action_guards {s : State} {action : Action} {birth_year birth_month
    income : ℕ} {roth_rate ira_rate inflation : F64} {s2 : State} {c : ℕ}
    (h : s.take_action action birth_year birth_month income roth_rate ira_rate
      inflation = some (s2, c)) :
    ¬ s.ira < action.rolloverAmount ∧
    ¬ s.ira < add32 action.rolloverAmount
      (get_rmd birth_year birth_month s.year s.ira) := by
  constructor
  · intro hc
    rw [(take_action_none_iff s action birth_year birth_month income roth_rate
      ira_rate inflation).mpr (Or.inl hc)] at h
    simp at h
  · intro hc
    rw [(take_action_none_iff s action birth_year birth_month income roth_rate
      ira_rate inflation).mpr (Or.inr hc)] at h
    simp at h

/-- The successor state and cost produced by an accepted `take_action` call,
with every component spelled out. -/
theorem take_action_some_shape {s : State} {action : Action} {birth_year
    birth_month income : ℕ} {roth_rate ira_rate inflation : F64} {s2 : State}
    {c : ℕ}
    (h : s.take_action action birth_year birth_month income roth_rate ira_rate
      inflation = some (s2, c)) :
    s2 = { year := wrap16 (s.year + 1)
           previous_action := some action
           roth := (F64.mul (F64.ofNat (add32 s.roth action.rolloverAmount))
             (F64.sub (F64.add one64 roth_rate) inflation)).toU32
           ira := postWithdrawalIra s action.rolloverAmount
             (get_rmd birth_year birth_month s.year s.ira) ira_rate inflation
           basis := sub32 s.basis (mul32 (basisPercentOf s.basis
             (postWithdrawalIra s action.rolloverAmount
               (get_rmd birth_year birth_month s.year s.ira) ira_rate inflation)
             (get_rmd birth_year birth_month s.year s.ira) action.rolloverAmount)
             (add32 (get_rmd birth_year birth_month s.year s.ira)
               action.rolloverAmount))
           total_cash := add32 s.total_cash (sub32 (add32
             (get_rmd birth_year birth_month s.year s.ira) income)
             (get_tax (add32 (mul32 (sub32 1 (basisPercentOf s.basis
               (postWithdrawalIra s action.rolloverAmount
                 (get_rmd birth_year birth_month s.year s.ira) ira_rate inflation)
               (get_rmd birth_year birth_month s.year s.ira)
               action.rolloverAmount))
               (add32 (get_rmd birth_year birth_month s.year s.ira)
                 action.rolloverAmount)) income)))
           total_tax := add32 s.total_tax (get_tax (add32 (mul32 (sub32 1
             (basisPercentOf s.basis
               (postWithdrawalIra s action.rolloverAmount
                 (get_rmd birth_year birth_month s.year s.ira) ira_rate inflation)
               (get_rmd birth_year birth_month s.year s.ira)
               action.rolloverAmount))
             (add32 (get_rmd birth_year birth_month s.year s.ira)
               action.rolloverAmount)) income)) } ∧
    c = sub32 (s2.maximum_after_tax_cash income) (s.maximum_after_tax_cash income) := by
  obtain ⟨hg1, hg2⟩ := take_action_guards h
  cases action <;>
    simp only [State.take_action, Action.rolloverAmount] at h hg1 hg2 ⊢ <;>
    rw [if_neg hg1, if_neg hg2] at h <;>
    · obtain ⟨h1, h2⟩ := Prod.mk.injEq .. ▸ Option.some.inj h
      constructor
      · rw [← h1]
        rfl
      · rw [← h2, ← h1]

/-! ## Claim theorems -/

/-- C4: `get_rmd_distribution_period`, with age computed as the truncated
difference `current_year - birth_year`, returns nothing below age 70; at age
exactly 70 it returns the first table entry exactly when the birth month is
before July; at ages 71..115 it returns the entry at index `age - 70`; and
above age 115 it returns the last (age-115) entry. -/
theorem claim_C4 (birth_year birth_month current_year : ℕ) :
    (current_year - birth_year < 70 →
      get_rmd_distribution_period birth_year birth_month current_year = none) ∧
    (current_year - birth_year = 70 →
      get_rmd_distribution_period birth_year birth_month current_year =
        if birth_month < 7 then some (DISTRIBUTION_PERIODS.getD 0 ⟨0, 0⟩)
        else none) ∧
    (71 ≤ current_year - birth_year → current_year - birth_year ≤ 115 →
      get_rmd_distribution_period birth_year birth_month current_year =
        some (DISTRIBUTION_PERIODS.getD (current_year - birth_year - 70) ⟨0, 0⟩)) ∧
    (115 < current_year - birth_year →
      get_rmd_distribution_period birth_year birth_month current_year =
        some (DISTRIBUTION_PERIODS.getD 45 ⟨0, 0⟩)) := by
  simp only [get_rmd_distribution_period]
  refine ⟨?_, ?_, ?_, ?_⟩ <;> intros <;> split_ifs <;> first | rfl | omega

theorem claim_C4_witness :
    get_rmd_distribution_period 1950 6 2019 = none ∧
    get_rmd_distribution_period 1949 6 2019 =
      some (DISTRIBUTION_PERIODS.getD 0 ⟨0, 0⟩) ∧
    get_rmd_distribution_period 1949 7 2019 = none ∧
    get_rmd_distribution_period 1929 3 2019 =
      some (DISTRIBUTION_PERIODS.getD 20 ⟨0, 0⟩) ∧
    get_rmd_distribution_period 1900 3 2019 =
      some (DISTRIBUTION_PERIODS.getD 45 ⟨0, 0⟩) := by
  refine ⟨(claim_C4 1950 6 2019).1 (by norm_num), ?_, ?_,
    ?_, (claim_C4 1900 3 2019).2.2.2 (by norm_num)⟩
  · rw [(claim_C4 1949 6 2019).2.1 rfl]
    norm_num
  · rw [(claim_C4 1949 7 2019).2.1 rfl]
    norm_num
  · exact (claim_C4 1929 3 2019).2.2.1 (by norm_num) (by norm_num)

/-- C8: `get_tax` is monotonically non-decreasing over the `u32` domain, with
`get_tax 0 = 0` and `get_tax 510400 = 153835` under the 2019 single-filer
schedule. -/
theorem claim_C8 :
    (∀ a b : ℕ, a ≤ b → b < 2 ^ 32 → get_tax a ≤ get_tax b) ∧
    get_tax 0 = 0 ∧ get_tax 510400 = 153835 :=
  ⟨fun _ _ h hb => get_tax_mono h hb, by decide, by decide⟩

theorem claim_C8_witness : get_tax 100000 ≤ get_tax 200000 :=
  claim_C8.1 100000 200000 (by norm_num) (by norm_num)

/-- C10: on every accepted transition whose old basis is strictly below
`postWithdrawalIra + rmd + rollover`, the integer-division basis percentage
is `0`, the new state's basis equals the old state's basis (no basis is
consumed), and the whole `rmd + rollover` plus external income enters the
taxable amount whose tax is added to `total_tax`. -/
theorem claim_C10 {s : State} {action : Action} {birth_year birth_month
    income : ℕ} {roth_rate ira_rate inflation : F64} {s2 : State} {c : ℕ}
    (h : s.take_action action birth_year birth_month income roth_rate ira_rate
      inflation = some (s2, c))
    (hlt : s.basis < postWithdrawalIra s action.rolloverAmount
        (get_rmd birth_year birth_month s.year s.ira) ira_rate inflation +
      get_rmd birth_year birth_month s.year s.ira + action.rolloverAmount)
    (hdenom : postWithdrawalIra s action.rolloverAmount
        (get_rmd birth_year birth_month s.year s.ira) ira_rate inflation +
      get_rmd birth_year birth_month s.year s.ira + action.rolloverAmount < 2 ^ 32)
    (hb : s.basis < 2 ^ 32) :
    basisPercentOf s.basis (postWithdrawalIra s action.rolloverAmount
        (get_rmd birth_year birth_month s.year s.ira) ira_rate inflation)
      (get_rmd birth_year birth_month s.year s.ira) action.rolloverAmount = 0 ∧
    s2.basis = s.basis ∧
    s2.total_tax = add32 s.total_tax (get_tax (add32
      (get_rmd birth_year birth_month s.year s.ira + action.rolloverAmount)
      income)) := by
  obtain ⟨hs2, hc⟩ := take_action_some_shape h
  set rmd := get_rmd birth_year birth_month s.year s.ira with hrmdd
  set P := postWithdrawalIra s action.rolloverAmount rmd ira_rate inflation
    with hPd
  have hbp : basisPercentOf s.basis P rmd action.rolloverAmount = 0 := by
    unfold basisPercentOf
    split_ifs with hne
    · have hcol : add32 (add32 P rmd) action.rolloverAmount =
          P + rmd + action.rolloverAmount := by
        simp only [add32]
        omega
      rw [hcol]
      exact Nat.div_eq_of_lt hlt
    · rfl
  refine ⟨hbp, ?_, ?_⟩
  · rw [hs2]
    show sub32 s.basis (mul32 (basisPercentOf s.basis P rmd action.rolloverAmount)
      (add32 rmd action.rolloverAmount)) = s.basis
    rw [hbp]
    simp only [mul32, sub32, add32]
    omega
  · rw [hs2]
    show add32 s.total_tax (get_tax (add32 (mul32
        (sub32 1 (basisPercentOf s.basis P rmd action.rolloverAmount))
        (add32 rmd action.rolloverAmount)) income)) =
      add32 s.total_tax (get_tax (add32 (rmd + action.rolloverAmount) income))
    rw [hbp]
    have hm : mul32 (sub32 1 0) (add32 rmd action.rolloverAmount) =
        rmd + action.rolloverAmount := by
      simp only [mul32, sub32, add32]
      omega
    rw [hm]

theorem claim_C10_witness :
    (State.mk 2035 none 0 1000 500 0 0).take_action Action.Continue 2000 6 0
      ⟨0, 0⟩ ⟨0, 0⟩ ⟨0, 0⟩ =
        some (State.mk 2036 (some Action.Continue) 0 1000 500 0 0, 0) ∧
    basisPercentOf 500 (postWithdrawalIra (State.mk 2035 none 0 1000 500 0 0)
        Action.Continue.rolloverAmount (get_rmd 2000 6 2035 1000) ⟨0, 0⟩ ⟨0, 0⟩)
      (get_rmd 2000 6 2035 1000) Action.Continue.rolloverAmount = 0 ∧
    (State.mk 2036 (some Action.Continue) 0 1000 500 0 0).basis = 500 ∧
    (State.mk 2036 (some Action.Continue) 0 1000 500 0 0).total_tax =
      add32 0 (get_tax (add32 (get_rmd 2000 6 2035 1000 +
        Action.Continue.rolloverAmount) 0)) := by
  have h : (State.mk 2035 none 0 1000 500 0 0).take_action Action.Continue
      2000 6 0 ⟨0, 0⟩ ⟨0, 0⟩ ⟨0, 0⟩ =
        some (State.mk 2036 (some Action.Continue) 0 1000 500 0 0, 0) := by
    decide
  have h2 := claim_C10 h (by decide) (by decide) (by decide)
  exact ⟨h, h2.1, h2.2.1, h2.2.2⟩

/-- C5 (amended): the basis-percent branch in `take_action` tests whether the
post-withdrawal IRA balance is nonzero — not whether the claimed divisor
`rmd + rollover + postWithdrawalIra` is nonzero. On every accepted transition
the new basis is the old basis minus (wrapped) `basisPercent × (rmd +
rollover)`, where `basisPercent` is `basis / (postIra + rmd + rollover)` (u32
sums) when the post-withdrawal IRA is nonzero and `0` when it is zero, even
if the divisor itself is nonzero. -/
theorem claim_C5 {s : State} {action : Action} {birth_year birth_month
    income : ℕ} {roth_rate ira_rate inflation : F64} {s2 : State} {c : ℕ}
    (h : s.take_action action birth_year birth_month income roth_rate ira_rate
      inflation = some (s2, c)) :
    s2.basis = sub32 s.basis (mul32 (basisPercentOf s.basis
        (postWithdrawalIra s action.rolloverAmount
          (get_rmd birth_year birth_month s.year s.ira) ira_rate inflation)
        (get_rmd birth_year birth_month s.year s.ira) action.rolloverAmount)
      (add32 (get_rmd birth_year birth_month s.year s.ira)
        action.rolloverAmount)) ∧
    (postWithdrawalIra s action.rolloverAmount
        (get_rmd birth_year birth_month s.year s.ira) ira_rate inflation ≠ 0 →
      basisPercentOf s.basis (postWithdrawalIra s action.rolloverAmount
          (get_rmd birth_year birth_month s.year s.ira) ira_rate inflation)
        (get_rmd birth_year birth_month s.year s.ira) action.rolloverAmount =
      s.basis / add32 (add32 (postWithdrawalIra s action.rolloverAmount
          (get_rmd birth_year birth_month s.year s.ira) ira_rate inflation)
        (get_rmd birth_year birth_month s.year s.ira)) action.rolloverAmount) ∧
    (postWithdrawalIra s action.rolloverAmount
        (get_rmd birth_year birth_month s.year s.ira) ira_rate inflation = 0 →
      basisPercentOf s.basis (postWithdrawalIra s action.rolloverAmount
          (get_rmd birth_year birth_month s.year s.ira) ira_rate inflation)
        (get_rmd birth_year birth_month s.year s.ira) action.rolloverAmount =
      0) := by
  obtain ⟨hs2, hc⟩ := take_action_some_shape h
  refine ⟨?_, fun hne => ?_, fun hz => ?_⟩
  · rw [hs2]
  · rw [basisPercentOf, if_pos hne]
  · rw [basisPercentOf, if_neg (fun hk => hk hz)]

set_option maxRecDepth 8000 in
/-- The scenario refuting C5's divisor-based reading: rolling the whole IRA
over makes the post-withdrawal IRA zero while the divisor
`rmd + rollover + postIra = 1000` is nonzero; the claimed basis percent would
be `2000 / 1000 = 2` and the claimed new basis `0`, but the code takes the
zero branch and the basis stays `2000`. -/
theorem claim_C5_counterexample :
    (State.mk 2035 none 0 1000 2000 0 0).take_action
        (Action.RolloverThenContinue 1000) 2000 6 0 ⟨0, 0⟩ ⟨0, 0⟩ ⟨0, 0⟩ =
      some (State.mk 2036 (some (Action.RolloverThenContinue 1000)) 1000 0 2000
        4294967196 100, 270) ∧
    get_rmd 2000 6 2035 1000 + 1000 +
      postWithdrawalIra (State.mk 2035 none 0 1000 2000 0 0) 1000
        (get_rmd 2000 6 2035 1000) ⟨0, 0⟩ ⟨0, 0⟩ ≠ 0 ∧
    2000 / (get_rmd 2000 6 2035 1000 + 1000 +
      postWithdrawalIra (State.mk 2035 none 0 1000 2000 0 0) 1000
        (get_rmd 2000 6 2035 1000) ⟨0, 0⟩ ⟨0, 0⟩) = 2 ∧
    (State.mk 2036 (some (Action.RolloverThenContinue 1000)) 1000 0 2000
      4294967196 100).basis = 2000 ∧
    sub32 2000 (mul32 2 (add32 (get_rmd 2000 6 2035 1000) 1000)) = 0 := by
  exact ⟨by decide, by decide, by decide, rfl, by decide⟩

theorem claim_C5_witness :
    basisPercentOf 500 (postWithdrawalIra (State.mk 2035 none 0 1000 500 0 0)
        Action.Continue.rolloverAmount (get_rmd 2000 6 2035 1000) ⟨0, 0⟩ ⟨0, 0⟩)
      (get_rmd 2000 6 2035 1000) Action.Continue.rolloverAmount =
    500 / add32 (add32 (postWithdrawalIra (State.mk 2035 none 0 1000 500 0 0)
        Action.Continue.rolloverAmount (get_rmd 2000 6 2035 1000) ⟨0, 0⟩ ⟨0, 0⟩)
      (get_rmd 2000 6 2035 1000)) Action.Continue.rolloverAmount := by
  have h : (State.mk 2035 none 0 1000 500 0 0).take_action Action.Continue
      2000 6 0 ⟨0, 0⟩ ⟨0, 0⟩ ⟨0, 0⟩ =
        some (State.mk 2036 (some Action.Continue) 0 1000 500 0 0, 0) := by
    decide
  exact (claim_C5 h).2.1 (by decide)

/-- C7: for the two actions the search actually issues (`Continue` and
`RolloverThenContinue 1000`) on a `u32`-ranged state, `take_action` returns
`none` exactly when `state.ira < rollover + rmd`; and `successors` surfaces
exactly the successful transitions — a failed action contributes nothing and
no error. -/
theorem claim_C7 (args : ProjectArgs) (s : State) (action : Action)
    (hira : s.ira < 2 ^ 32)
    (hact : action = Action.Continue ∨
      action = Action.RolloverThenContinue 1000) :
    (s.take_action action args.birth_year args.birth_month
        args.yearly_taxable_income_excluding_ira args.roth_effective_annual_rate
        args.ira_effective_annual_rate args.inflation_effective_annual_rate =
          none ↔
      s.ira < action.rolloverAmount +
        get_rmd args.birth_year args.birth_month s.year s.ira) ∧
    (∀ pc : State × ℕ, pc ∈ successors s args ↔
      (s.take_action Action.Continue args.birth_year args.birth_month
        args.yearly_taxable_income_excluding_ira args.roth_effective_annual_rate
        args.ira_effective_annual_rate args.inflation_effective_annual_rate =
          some pc ∨
       s.take_action (Action.RolloverThenContinue 1000) args.birth_year
        args.birth_month args.yearly_taxable_income_excluding_ira
        args.roth_effective_annual_rate args.ira_effective_annual_rate
        args.inflation_effective_annual_rate = some pc)) := by
  constructor
  · have hrmd := get_rmd_bound args.birth_year args.birth_month s.year s.ira hira
    rw [take_action_none_iff]
    have hcol : add32 action.rolloverAmount
        (get_rmd args.birth_year args.birth_month s.year s.ira) =
        action.rolloverAmount +
          get_rmd args.birth_year args.birth_month s.year s.ira := by
      rcases hact with h | h <;> subst h <;>
        simp only [Action.rolloverAmount, add32] <;> omega
    rw [hcol]
    omega
  · intro pc
    simp only [successors, List.filterMap_cons, id_eq, List.filterMap_nil]
    rcases h1 : s.take_action Action.Continue args.birth_year args.birth_month
        args.yearly_taxable_income_excluding_ira args.roth_effective_annual_rate
        args.ira_effective_annual_rate args.inflation_effective_annual_rate
      with _ | x1 <;>
    rcases h2 : s.take_action (Action.RolloverThenContinue 1000) args.birth_year
        args.birth_month args.yearly_taxable_income_excluding_ira
        args.roth_effective_annual_rate args.ira_effective_annual_rate
        args.inflation_effective_annual_rate with _ | x2 <;>
    simp [eq_comm]

theorem claim_C7_witness :
    ((State.mk 2035 none 0 1000 0 0 0).take_action
        (Action.RolloverThenContinue 1000) shrinkArgs.birth_year
        shrinkArgs.birth_month shrinkArgs.yearly_taxable_income_excluding_ira
        shrinkArgs.roth_effective_annual_rate shrinkArgs.ira_effective_annual_rate
        shrinkArgs.inflation_effective_annual_rate = none ↔
      1000 < (Action.RolloverThenContinue 1000).rolloverAmount +
        get_rmd shrinkArgs.birth_year shrinkArgs.birth_month 2035 1000) :=
  (claim_C7 shrinkArgs (State.mk 2035 none 0 1000 0 0 0)
    (Action.RolloverThenContinue 1000) (by decide) (Or.inr rfl)).1

/-- C3: the computation is not total on validated input — on `basisArgs`
(which passes validation) the very first `Continue` transition is accepted
yet leaves `u32` range: the post-growth IRA truncates to zero below the
retained basis, so the successor's `ira - basis` (and the cost subtraction)
wrap, violating the spec's totality requirement. -/
theorem claim_C3 :
    basisArgs.validate = true ∧
    (State.new basisArgs.start_year basisArgs.roth_present_value
        basisArgs.ira_present_value basisArgs.basis_value
        basisArgs.starting_cash).take_action Action.Continue
      basisArgs.birth_year basisArgs.birth_month
      basisArgs.yearly_taxable_income_excluding_ira
      basisArgs.roth_effective_annual_rate basisArgs.ira_effective_annual_rate
      basisArgs.inflation_effective_annual_rate ≠ none ∧
    (State.new basisArgs.start_year basisArgs.roth_present_value
        basisArgs.ira_present_value basisArgs.basis_value
        basisArgs.starting_cash).takeActionSafe Action.Continue
      basisArgs.birth_year basisArgs.birth_month
      basisArgs.yearly_taxable_income_excluding_ira
      basisArgs.roth_effective_annual_rate basisArgs.ira_effective_annual_rate
      basisArgs.inflation_effective_annual_rate = false := by
  exact ⟨by decide, by decide, by decide⟩

/-- The scenario refuting C2: on validated `shrinkArgs`, the first `Continue`
transition is accepted while the liquidation value falls from 900 to 0, so
the u32 cost subtraction underflows to `2^32 - 900`. -/
theorem claim_C2_counterexample :
    shrinkArgs.validate = true ∧
    (State.new shrinkArgs.start_year shrinkArgs.roth_present_value
        shrinkArgs.ira_present_value shrinkArgs.basis_value
        shrinkArgs.starting_cash).take_action Action.Continue
      shrinkArgs.birth_year shrinkArgs.birth_month
      shrinkArgs.yearly_taxable_income_excluding_ira
      shrinkArgs.roth_effective_annual_rate shrinkArgs.ira_effective_annual_rate
      shrinkArgs.inflation_effective_annual_rate =
        some (State.mk 2036 (some Action.Continue) 0 0 0 0 0, 4294966396) ∧
    (State.mk 2036 (some Action.Continue) 0 0 0 0 0).maximum_after_tax_cash
        shrinkArgs.yearly_taxable_income_excluding_ira <
      (State.new shrinkArgs.start_year shrinkArgs.roth_present_value
        shrinkArgs.ira_present_value shrinkArgs.basis_value
        shrinkArgs.starting_cash).maximum_after_tax_cash
        shrinkArgs.yearly_taxable_income_excluding_ira := by
  exact ⟨by decide, by decide, by decide⟩

/-- Multiplying a `u32` value by a binary64 factor strictly above one and
truncating back to `u32` cannot shrink it: a binary64 value above 1 is at
least `1 + 2^-52`, which absorbs the single rounding of the product. -/
theorem toU32_mul_ge (x : ℕ) (g : F64) (hx : x < 2 ^ 32) (hg : 1 < g.val)
    (hgm : g.m ≤ 2 ^ 53) : x ≤ (F64.mul (F64.ofNat x) g).toU32 := by
  have hgap := F64.one_gap g hgm hg
  have hma : (F64.ofNat x).m ≤ 2 ^ 60 := by
    show x ≤ 2 ^ 60
    calc x ≤ 2 ^ 32 := le_of_lt hx
      _ ≤ 2 ^ 60 := Nat.pow_le_pow_right (by norm_num) (by norm_num)
  have hmb : g.m ≤ 2 ^ 60 :=
    le_trans hgm (Nat.pow_le_pow_right (by norm_num) (by norm_num))
  have hlow := (F64.mul_val_bounds (F64.ofNat x) g hma hmb).1
  rw [F64.ofNat_val] at hlow
  simp only [rndEps] at hlow
  have hx0 : (0:ℚ) ≤ (x:ℚ) := by positivity
  have hfac : (1:ℚ) ≤ (1 - 1 / 2 ^ 53) * g.val := by nlinarith [hgap]
  have hxval : (x : ℚ) ≤ (F64.mul (F64.ofNat x) g).val := by
    calc (x:ℚ) = x * 1 := by ring
      _ ≤ x * ((1 - 1 / 2 ^ 53) * g.val) := mul_le_mul_of_nonneg_left hfac hx0
      _ = (1 - 1 / 2 ^ 53) * ((x:ℚ) * g.val) := by ring
      _ ≤ (F64.mul (F64.ofNat x) g).val := hlow
  exact F64.le_toU32 _ x hxval (by omega)

/-- C2 (amended): the liquidation value can shrink across an accepted
transition in general, but it is non-decreasing — and the u32 cost
subtraction is the exact difference — for a `Continue` step with no RMD due
when both net growth factors exceed one and every quantity stays in `u32`
range. -/
theorem claim_C2 {s : State} {birth_year birth_month income : ℕ}
    {roth_rate ira_rate inflation : F64} {s2 : State} {c : ℕ}
    (h : s.take_action Action.Continue birth_year birth_month income roth_rate
      ira_rate inflation = some (s2, c))
    (hrmd0 : get_rmd birth_year birth_month s.year s.ira = 0)
    (hgR : 1 < (F64.sub (F64.add one64 roth_rate) inflation).val)
    (hgRm : (F64.sub (F64.add one64 roth_rate) inflation).m ≤ 2 ^ 53)
    (hgI : 1 < (F64.sub (F64.add one64 ira_rate) inflation).val)
    (hgIm : (F64.sub (F64.add one64 ira_rate) inflation).m ≤ 2 ^ 53)
    (hroth32 : s.roth < 2 ^ 32) (hira32 : s.ira < 2 ^ 32)
    (hbasis : s.basis ≤ s.ira) (hinc : income < 2 ^ 32)
    (hcash : s.total_cash + income < 2 ^ 32)
    (hsum1 : s.roth + s.total_cash + s.basis +
      (s.ira - s.basis + income) < 2 ^ 32)
    (hsum2 : s2.roth + s2.total_cash + s.basis +
      (s2.ira - s.basis + income) < 2 ^ 32) :
    s.maximum_after_tax_cash income ≤ s2.maximum_after_tax_cash income ∧
    c = s2.maximum_after_tax_cash income - s.maximum_after_tax_cash income := by
  obtain ⟨hs2, hc⟩ := take_action_some_shape h
  rw [hrmd0] at hs2
  rw [show Action.Continue.rolloverAmount = 0 from rfl] at hs2
  simp only [postWithdrawalIra] at hs2
  have hb32 : s.basis < 2 ^ 32 := lt_of_le_of_lt hbasis hira32
  have htinc := get_tax_le_self income hinc
  have e1 : add32 s.roth 0 = s.roth := by simp only [add32]; omega
  have e2 : sub32 (sub32 s.ira 0) 0 = s.ira := by simp only [sub32]; omega
  have e3 : add32 0 0 = 0 := by simp only [add32]; omega
  rw [e1, e2, e3] at hs2
  have e4 : ∀ y : ℕ, mul32 y 0 = 0 := by
    intro y
    simp only [mul32, Nat.mul_zero, Nat.zero_mod]
  simp only [e4] at hs2
  have e5 : sub32 s.basis 0 = s.basis := by simp only [sub32]; omega
  have e6 : add32 0 income = income := by simp only [add32]; omega
  rw [e5, e6] at hs2
  have e7 : sub32 income (get_tax income) = income - get_tax income := by
    simp only [sub32]
    omega
  have e8 : add32 s.total_cash (income - get_tax income) =
      s.total_cash + (income - get_tax income) := by
    simp only [add32]
    omega
  rw [e7, e8] at hs2
  have hfR : s2.roth = (F64.mul (F64.ofNat s.roth)
      (F64.sub (F64.add one64 roth_rate) inflation)).toU32 := by rw [hs2]
  have hfI : s2.ira = (F64.mul (F64.ofNat s.ira)
      (F64.sub (F64.add one64 ira_rate) inflation)).toU32 := by rw [hs2]
  have hfB : s2.basis = s.basis := by rw [hs2]
  have hfC : s2.total_cash = s.total_cash + (income - get_tax income) := by
    rw [hs2]
  have hRge : s.roth ≤ (F64.mul (F64.ofNat s.roth)
      (F64.sub (F64.add one64 roth_rate) inflation)).toU32 :=
    toU32_mul_ge s.roth _ hroth32 hgR hgRm
  have hIge : s.ira ≤ (F64.mul (F64.ofNat s.ira)
      (F64.sub (F64.add one64 ira_rate) inflation)).toU32 :=
    toU32_mul_ge s.ira _ hira32 hgI hgIm
  have hR2lt : (F64.mul (F64.ofNat s.roth)
      (F64.sub (F64.add one64 roth_rate) inflation)).toU32 < 2 ^ 32 :=
    F64.toU32_lt _
  have hI2lt : (F64.mul (F64.ofNat s.ira)
      (F64.sub (F64.add one64 ira_rate) inflation)).toU32 < 2 ^ 32 :=
    F64.toU32_lt _
  rw [hfR, hfI] at hsum2
  have hmatc : ∀ st : State, st.basis ≤ st.ira →
      st.ira - st.basis + income < 2 ^ 32 →
      st.roth + st.total_cash + st.basis +
        (st.ira - st.basis + income) < 2 ^ 32 →
      st.maximum_after_tax_cash income = st.roth + st.total_cash + st.basis +
        (st.ira - st.basis + income) -
          get_tax (st.ira - st.basis + income) := by
    intro st h1 h2 h3
    simp only [State.maximum_after_tax_cash]
    have h4 : add32 (sub32 st.ira st.basis) income =
        st.ira - st.basis + income := by
      simp only [add32, sub32]
      omega
    rw [h4]
    have h5 := get_tax_le_self _ h2
    simp only [add32, sub32]
    omega
  have hm1 := hmatc s hbasis (by omega) (by omega)
  have hm2 := hmatc s2 (by rw [hfB, hfI]; omega) (by rw [hfB, hfI]; omega)
    (by rw [hfR, hfB, hfI, hfC]; omega)
  rw [hfR, hfI, hfB, hfC] at hm2
  have hA12 : s.ira - s.basis + income ≤ (F64.mul (F64.ofNat s.ira)
      (F64.sub (F64.add one64 ira_rate) inflation)).toU32 -
        s.basis + income := by omega
  have hlip := get_tax_lipschitz hA12 (by omega)
  have ht1 := get_tax_le_self (s.ira - s.basis + income) (by omega)
  have ht2 := get_tax_le_self ((F64.mul (F64.ofNat s.ira)
      (F64.sub (F64.add one64 ira_rate) inflation)).toU32 -
        s.basis + income) (by omega)
  rw [hm1, hm2] at hc ⊢
  simp only [sub32] at hc
  constructor
  · omega
  · omega

theorem claim_C2_witness :
    (State.mk 2035 none 100 1000 0 0 0).maximum_after_tax_cash 0 ≤
      (State.mk 2036 (some Action.Continue) 150 1500 0 0 0).maximum_after_tax_cash
        0 ∧
    (500 : ℕ) =
      (State.mk 2036 (some Action.Continue) 150 1500 0 0 0).maximum_after_tax_cash
          0 -
        (State.mk 2035 none 100 1000 0 0 0).maximum_after_tax_cash 0 := by
  have h : (State.mk 2035 none 100 1000 0 0 0).take_action Action.Continue
      2000 6 0 ⟨1, -1⟩ ⟨1, -1⟩ ⟨0, 0⟩ =
        some (State.mk 2036 (some Action.Continue) 150 1500 0 0 0, 500) := by
    decide
  have hgval : F64.sub (F64.add one64 ⟨1, -1⟩) (⟨0, 0⟩ : F64) =
      (⟨3, -1⟩ : F64) := by decide
  have hg : 1 < (F64.sub (F64.add one64 ⟨1, -1⟩) (⟨0, 0⟩ : F64)).val := by
    rw [hgval, F64.val_mk]
    rw [show ((-1 : ℤ) = -(1:ℕ)) from rfl, zpow_neg, zpow_natCast]
    norm_num
  exact claim_C2 h (by decide) hg (by decide) hg (by decide) (by decide)
    (by decide) (by decide) (by decide) (by decide) (by decide) (by decide)

set_option maxRecDepth 10000 in
/-- C6 (amended): on the §8 scenario `project` returns `Some` and the cost is
well-defined, but the returned path has SEVEN states — one per year 2035
through 2041 inclusive, the terminal state one year past the end year
included — with total cost 57353; ten units of fuel cover every traversal of
the scenario's decision graph. -/
theorem claim_C6 :
    (project shortArgs 10).map
        (fun pc => (pc.1.map State.year, pc.1.length, pc.2)) =
      some ([2035, 2036, 2037, 2038, 2039, 2040, 2041], 7, 57353) ∧
    fuelOk (fun s => successors s shortArgs)
      (fun s => shortArgs.end_year < s.year) 10
      (State.new shortArgs.start_year shortArgs.roth_present_value
        shortArgs.ira_present_value shortArgs.basis_value
        shortArgs.starting_cash) = true := by
  constructor
  · decide
  · decide

set_option maxRecDepth 10000 in
/-- The scenario refuting C6's state count: the returned path does not have
six states (it has seven, ending in year 2041, not 2040). -/
theorem claim_C6_counterexample :
    (project shortArgs 10).map (fun pc => pc.1.length) ≠ some 6 := by decide

/-! ## Analysis of the search engine's accumulator -/

theorem bstep_flag {N C : Type} (ltC : C → C → Bool)
    (a : Option (List N × C)) (q : List N × C) :
    (bstep ltC (a, true) q).2 = true := by
  cases a with
  | none => rfl
  | some p =>
    simp only [bstep]
    split_ifs <;> rfl

theorem bfold_flag {N C : Type} (ltC : C → C → Bool) :
    ∀ (T : List (List N × C)) (a : Option (List N × C)),
    (bfold ltC (a, true) T).2 = true := by
  intro T
  induction T with
  | nil => intro a; rfl
  | cons q T ih =>
    intro a
    show (bfold ltC (bstep ltC (a, true) q) T).2 = true
    rcases hbs : bstep ltC (a, true) q with ⟨b, u⟩
    have hu : u = true := by
      have h := bstep_flag ltC a q
      rw [hbs] at h
      exact h
    rw [hu]
    exact ih b

theorem bfold_or {N C : Type} (ltC : C → C → Bool) :
    ∀ (T : List (List N × C)) (a : Option (List N × C)) (u : Bool),
    bfold ltC (a, u) T =
      ((bfold ltC (a, false) T).1, u || (bfold ltC (a, false) T).2) := by
  intro T
  induction T with
  | nil =>
    intro a u
    simp [bfold]
  | cons q T ih =>
    intro a u
    show bfold ltC (bstep ltC (a, u) q) T =
      ((bfold ltC (bstep ltC (a, false) q) T).1,
       u || (bfold ltC (bstep ltC (a, false) q) T).2)
    cases a with
    | none =>
      show bfold ltC (some q, true) T =
        ((bfold ltC (some q, true) T).1, u || (bfold ltC (some q, true) T).2)
      have hf := bfold_flag ltC T (some q)
      rcases hb : bfold ltC (some q, true) T with ⟨b, v⟩
      rw [hb] at hf
      simp only at hf
      rw [hf]
      simp
    | some p =>
      simp only [bstep]
      split_ifs with hlt
      · have hf := bfold_flag ltC T (some q)
        rcases hb : bfold ltC (some q, true) T with ⟨b, v⟩
        rw [hb] at hf
        simp only at hf
        rw [hf]
        simp
      · exact ih (some p) u

theorem bfold_append {N C : Type} (ltC : C → C → Bool)
    (acc : Option (List N × C) × Bool) (T1 T2 : List (List N × C)) :
    bfold ltC acc (T1 ++ T2) = bfold ltC (bfold ltC acc T1) T2 := by
  simp [bfold, List.foldl_append]

theorem bfold_valid {N C : Type} (ltC : C → C → Bool) :
    ∀ (T : List (List N × C)) (a : Option (List N × C)) (u : Bool),
    (∀ pc ∈ T, pc.1 ≠ ([] : List N)) →
    (∀ p pc, a = some (p, pc) → p ≠ []) →
    ∀ p pc, (bfold ltC (a, u) T).1 = some (p, pc) → p ≠ [] := by
  intro T
  induction T with
  | nil =>
    intro a u _ hval p pc h
    exact hval p pc h
  | cons q T ih =>
    intro a u hT hval
    show ∀ p pc, (bfold ltC (bstep ltC (a, u) q) T).1 = some (p, pc) → p ≠ []
    have hq : q.1 ≠ [] := hT q (List.mem_cons_self q T)
    have hTtail : ∀ pc ∈ T, pc.1 ≠ ([] : List N) :=
      fun pc h => hT pc (List.mem_cons_of_mem q h)
    rcases hbs : bstep ltC (a, u) q with ⟨b, v⟩
    have hbval : ∀ p pc, b = some (p, pc) → p ≠ [] := by
      intro p pc hb
      cases a with
      | none =>
        simp only [bstep] at hbs
        obtain ⟨hb1, _⟩ := Prod.mk.injEq .. ▸ hbs
        rw [← hb1] at hb
        obtain ⟨h1, h2⟩ := Prod.mk.injEq .. ▸ Option.some.inj hb
        rw [← h1]
        exact hq
      | some r =>
        simp only [bstep] at hbs
        split_ifs at hbs
        · obtain ⟨hb1, _⟩ := Prod.mk.injEq .. ▸ hbs
          rw [← hb1] at hb
          obtain ⟨h1, h2⟩ := Prod.mk.injEq .. ▸ Option.some.inj hb
          rw [← h1]
          exact hq
        · obtain ⟨hb1, _⟩ := Prod.mk.injEq .. ▸ hbs
          rw [← hb1] at hb
          have hr := Option.some.inj hb
          exact hval p pc (by rw [hr])
    exact ih b v hTtail hbval

theorem terminalPaths_head {N C : Type} (succs : N → List (N × C))
    (succQ : N → Bool) (addC : C → C → C) :
    ∀ (fuel : ℕ) (n : N) (c : C),
    ∀ pc ∈ terminalPaths succs succQ addC fuel n c, ∃ t, pc.1 = n :: t := by
  intro fuel
  induction fuel with
  | zero =>
    intro n c pc h
    simp [terminalPaths] at h
  | succ fuel ih =>
    intro n c pc h
    rw [terminalPaths] at h
    split_ifs at h with hq
    · rw [List.mem_singleton] at h
      exact ⟨[], by rw [h]⟩
    · rw [List.mem_flatten] at h
      obtain ⟨l, hl, hpcl⟩ := h
      rw [List.mem_map] at hl
      obtain ⟨nc, _, hlnc⟩ := hl
      rw [← hlnc, List.mem_map] at hpcl
      obtain ⟨pc0, _, hpc0⟩ := hpcl
      exact ⟨pc0.1, by rw [← hpc0]⟩

theorem bfold_map_cons_upd {N C : Type} (ltC : C → C → Bool) (n : N) :
    ∀ (L : List (List N × C)) (b : List N × C),
    bfold ltC (some (n :: b.1, b.2), true)
        (L.map (fun pc => (n :: pc.1, pc.2))) =
      (Option.map (fun p => (n :: p.1, p.2)) (bfold ltC (some b, true) L).1,
       true) := by
  intro L
  induction L with
  | nil =>
    intro b
    rfl
  | cons q L ih =>
    intro b
    rw [List.map_cons]
    show bfold ltC (bstep ltC (some (n :: b.1, b.2), true) (n :: q.1, q.2))
        (L.map (fun pc => (n :: pc.1, pc.2))) = _
    have hrhs : bfold ltC (some b, true) (q :: L) =
        bfold ltC (bstep ltC (some b, true) q) L := rfl
    rw [hrhs]
    simp only [bstep]
    split_ifs with hlt
    · exact ih q
    · exact ih b

theorem bfold_map_cons {N C : Type} (ltC : C → C → Bool) (n : N) :
    ∀ (L : List (List N × C)) (acc : Option (List N × C)),
    bfold ltC (acc, false) (L.map (fun pc => (n :: pc.1, pc.2))) =
      (if (bfold ltC (acc, false) L).2 = true then
        (Option.map (fun p => (n :: p.1, p.2)) (bfold ltC (acc, false) L).1,
         true)
      else bfold ltC (acc, false) L) := by
  intro L
  induction L with
  | nil =>
    intro acc
    rfl
  | cons q L ih =>
    intro acc
    rw [List.map_cons]
    show bfold ltC (bstep ltC (acc, false) (n :: q.1, q.2))
        (L.map (fun pc => (n :: pc.1, pc.2))) = _
    have hrhs : bfold ltC (acc, false) (q :: L) =
        bfold ltC (bstep ltC (acc, false) q) L := rfl
    rw [hrhs]
    cases acc with
    | none =>
      show bfold ltC (some (n :: q.1, q.2), true)
          (L.map (fun pc => (n :: pc.1, pc.2))) = _
      rw [show bstep ltC ((none : Option (List N × C)), false) q =
        (some q, true) from rfl]
      rw [bfold_map_cons_upd ltC n L q]
      have hf := bfold_flag ltC L (some q)
      rw [if_pos hf]
    | some p =>
      by_cases hlt : ltC p.2 q.2 = true
      · rw [show bstep ltC (some p, false) (n :: q.1, q.2) =
          (some (n :: q.1, q.2), true) from by simp [bstep, hlt]]
        rw [show bstep ltC (some p, false) q = (some q, true) from by
          simp [bstep, hlt]]
        rw [bfold_map_cons_upd ltC n L q]
        have hf := bfold_flag ltC L (some q)
        rw [if_pos hf]
      · rw [show bstep ltC (some p, false) (n :: q.1, q.2) =
          (some p, false) from by simp [bstep, hlt]]
        rw [show bstep ltC (some p, false) q = (some p, false) from by
          simp [bstep, hlt]]
        exact ih (some p)

theorem flatten_map_cons {N C : Type} (n : N) :
    ∀ L : List (List (List N × C)),
    (L.map (fun T => T.map (fun pc => (n :: pc.1, pc.2)))).flatten =
      L.flatten.map (fun pc => (n :: pc.1, pc.2)) := by
  intro L
  induction L with
  | nil => rfl
  | cons T L ih =>
    simp only [List.map_cons, List.flatten_cons, List.map_append, ih]

theorem spr_foldl_aux {N C : Type} (succs : N → List (N × C)) (succQ : N → Bool)
    (addC : C → C → C) (ltC : C → C → Bool) (fuel : ℕ) (c : C)
    (hIH : ∀ (m : N) (cm : C) (a : Option (List N × C)),
      fuelOk succs succQ fuel m = true →
      (∀ p pc, a = some (p, pc) → p ≠ []) →
      shortest_path_recursive succs succQ addC ltC fuel m cm a =
        bfold ltC (a, false) (terminalPaths succs succQ addC fuel m cm)) :
    ∀ (l : List (N × C)) (a : Option (List N × C)) (u : Bool),
    (∀ nc ∈ l, fuelOk succs succQ fuel nc.1 = true) →
    (∀ p pc, a = some (p, pc) → p ≠ []) →
    l.foldl (fun acc nc =>
        let r := shortest_path_recursive succs succQ addC ltC fuel nc.1
          (addC c nc.2) acc.1
        (r.1, r.2 || acc.2)) (a, u) =
      ((bfold ltC (a, false) ((l.map (fun nc =>
          terminalPaths succs succQ addC fuel nc.1 (addC c nc.2))).flatten)).1,
       (bfold ltC (a, false) ((l.map (fun nc =>
          terminalPaths succs succQ addC fuel nc.1 (addC c nc.2))).flatten)).2
        || u) := by
  intro l
  induction l with
  | nil =>
    intro a u _ _
    simp [bfold]
  | cons nc l ih =>
    intro a u hall hval
    rw [List.foldl_cons]
    have hspr := hIH nc.1 (addC c nc.2) a
      (hall nc (List.mem_cons_self nc l)) hval
    simp only
    rw [hspr]
    have hvalB : ∀ p pc,
        (bfold ltC (a, false)
          (terminalPaths succs succQ addC fuel nc.1 (addC c nc.2))).1 =
          some (p, pc) → p ≠ [] := by
      apply bfold_valid
      · intro pc hpc
        obtain ⟨t, ht⟩ := terminalPaths_head succs succQ addC fuel nc.1
          (addC c nc.2) pc hpc
        rw [ht]
        exact List.cons_ne_nil _ _
      · exact hval
    rw [List.map_cons, List.flatten_cons, bfold_append ltC (a, false)]
    rcases hB1 : bfold ltC (a, false)
      (terminalPaths succs succQ addC fuel nc.1 (addC c nc.2)) with ⟨b1, u1⟩
    rw [hB1] at hvalB
    simp only at hvalB ⊢
    rw [ih b1 (u1 || u) (fun mc h => hall mc (List.mem_cons_of_mem nc h)) hvalB]
    rw [bfold_or ltC ((l.map (fun nc =>
      terminalPaths succs succQ addC fuel nc.1 (addC c nc.2))).flatten) b1 u1]
    simp only
    congr 1
    cases u <;> cases u1 <;> simp

theorem spr_eq_bfold {N C : Type} (succs : N → List (N × C)) (succQ : N → Bool)
    (addC : C → C → C) (ltC : C → C → Bool) :
    ∀ (fuel : ℕ) (n : N) (c : C) (acc : Option (List N × C)),
    fuelOk succs succQ fuel n = true →
    (∀ p pc, acc = some (p, pc) → p ≠ []) →
    shortest_path_recursive succs succQ addC ltC fuel n c acc =
      bfold ltC (acc, false) (terminalPaths succs succQ addC fuel n c) := by
  intro fuel
  induction fuel with
  | zero =>
    intro n c acc h _
    simp [fuelOk] at h
  | succ fuel ih =>
    intro n c acc hok hval
    by_cases hq : succQ n = true
    · simp only [shortest_path_recursive, terminalPaths, hq, if_true]
      cases acc with
      | none => rfl
      | some ppc =>
        rcases ppc with ⟨p, pc⟩
        have hp : p ≠ [] := hval p pc rfl
        have hdec : decide (p.length = 0) = false :=
          decide_eq_false (fun h => hp (List.length_eq_zero.mp h))
        dsimp only
        rw [hdec]
        simp only [Bool.or_false, bfold, List.foldl, bstep]
        cases hlt : ltC pc c <;> simp [hlt]
    · have hq' : succQ n = false := by
        cases h : succQ n
        · rfl
        · exact absurd h hq
      have hall : ∀ nc ∈ succs n, fuelOk succs succQ fuel nc.1 = true := by
        rw [fuelOk, hq', Bool.false_or, List.all_eq_true] at hok
        intro nc h
        exact hok nc h
      simp only [shortest_path_recursive, terminalPaths, hq', Bool.false_eq_true,
        if_false]
      rw [spr_foldl_aux succs succQ addC ltC fuel c ih (succs n) acc false hall
        hval]
      have hT : ((succs n).map (fun nc =>
          (terminalPaths succs succQ addC fuel nc.1 (addC c nc.2)).map
            (fun pc => (n :: pc.1, pc.2)))).flatten =
          (((succs n).map (fun nc =>
            terminalPaths succs succQ addC fuel nc.1 (addC c nc.2))).flatten).map
              (fun pc => (n :: pc.1, pc.2)) := by
        rw [show (fun nc : N × C =>
            (terminalPaths succs succQ addC fuel nc.1 (addC c nc.2)).map
              (fun pc => (n :: pc.1, pc.2))) =
          ((fun T : List (List N × C) => T.map (fun pc => (n :: pc.1, pc.2))) ∘
            (fun nc : N × C =>
              terminalPaths succs succQ addC fuel nc.1 (addC c nc.2)))
          from rfl]
        rw [← List.map_map]
        exact flatten_map_cons n _
      rw [hT, bfold_map_cons ltC n]
      rcases hF : bfold ltC (acc, false) (((succs n).map (fun nc =>
        terminalPaths succs succQ addC fuel nc.1 (addC c nc.2))).flatten)
        with ⟨f1, f2⟩
      simp only [Bool.or_false]

theorem mem_terminalPaths_iff {N C : Type} (succs : N → List (N × C))
    (succQ : N → Bool) (addC : C → C → C) :
    ∀ (fuel : ℕ) (n : N) (c : C), fuelOk succs succQ fuel n = true →
    ∀ (p : List N) (pc : C),
      (p, pc) ∈ terminalPaths succs succQ addC fuel n c ↔
        PathTo succs succQ addC n c p pc := by
  intro fuel
  induction fuel with
  | zero =>
    intro n c h
    simp [fuelOk] at h
  | succ fuel ih =>
    intro n c hok p pc
    by_cases hq : succQ n = true
    · rw [terminalPaths, if_pos hq]
      constructor
      · intro h
        rw [List.mem_singleton] at h
        obtain ⟨h1, h2⟩ := Prod.mk.injEq .. ▸ h
        rw [h1, h2]
        exact PathTo.terminal n c hq
      · intro h
        cases h with
        | terminal _ _ _ => exact List.mem_singleton.mpr rfl
        | step _ _ m w p0 pc0 hnq hmem hrest =>
          rw [hq] at hnq
          exact absurd hnq (by simp)
    · have hq' : succQ n = false := by
        cases h : succQ n
        · rfl
        · exact absurd h hq
      have hall : ∀ nc ∈ succs n, fuelOk succs succQ fuel nc.1 = true := by
        rw [fuelOk, hq', Bool.false_or, List.all_eq_true] at hok
        exact hok
      rw [terminalPaths, if_neg (by simp [hq'])]
      constructor
      · intro h
        rw [List.mem_flatten] at h
        obtain ⟨l, hl, hpl⟩ := h
        rw [List.mem_map] at hl
        obtain ⟨nc, hnc, hlnc⟩ := hl
        rw [← hlnc, List.mem_map] at hpl
        obtain ⟨pc0, hpc0mem, hpc0⟩ := hpl
        rcases pc0 with ⟨p0, c0⟩
        obtain ⟨h1, h2⟩ := Prod.mk.injEq .. ▸ hpc0
        rw [← h1, ← h2]
        rcases nc with ⟨m, w⟩
        exact PathTo.step n c m w p0 c0 hq' hnc
          ((ih m (addC c w) (hall (m, w) hnc) p0 c0).mp hpc0mem)
      · intro h
        cases h with
        | terminal _ _ hqt =>
          rw [hqt] at hq'
          exact absurd hq' (by simp)
        | step _ _ m w p0 pc0 hnq hmem hrest =>
          rw [List.mem_flatten]
          refine ⟨(terminalPaths succs succQ addC fuel m (addC c w)).map
            (fun pc => (n :: pc.1, pc.2)), ?_, ?_⟩
          · rw [List.mem_map]
            exact ⟨(m, w), hmem, rfl⟩
          · rw [List.mem_map]
            exact ⟨(p0, pc),
              (ih m (addC c w) (hall (m, w) hmem) p0 pc).mpr hrest, rfl⟩

theorem bfold_firstmax {N : Type} :
    ∀ (T : List (List N × ℕ)) (b : List N × ℕ),
    (bfold (fun a b2 => decide (a < b2)) (some b, true) T = (some b, true) ∧
      ∀ q ∈ T, q.2 ≤ b.2) ∨
    (∃ T1 m T2, T = T1 ++ m :: T2 ∧
      bfold (fun a b2 => decide (a < b2)) (some b, true) T = (some m, true) ∧
      b.2 < m.2 ∧ (∀ q ∈ T1, q.2 < m.2) ∧ (∀ q ∈ T2, q.2 ≤ m.2)) := by
  intro T
  induction T with
  | nil =>
    intro b
    left
    exact ⟨rfl, by simp⟩
  | cons q T ih =>
    intro b
    by_cases hlt : b.2 < q.2
    · have hstep : bfold (fun a b2 => decide (a < b2)) (some b, true) (q :: T) =
          bfold (fun a b2 => decide (a < b2)) (some q, true) T := by
        show bfold _ (bstep _ (some b, true) q) T = _
        simp [bstep, hlt]
      rcases ih q with ⟨heq, hall⟩ | ⟨T1, m, T2, hsplit, heq, hbm, h1, h2⟩
      · right
        exact ⟨[], q, T, rfl, by rw [hstep]; exact heq, hlt, by simp, hall⟩
      · right
        refine ⟨q :: T1, m, T2, by rw [hsplit]; rfl, by rw [hstep]; exact heq,
          lt_trans hlt hbm, ?_, h2⟩
        intro q2 hq2
        rcases List.mem_cons.mp hq2 with h | h
        · rw [h]
          exact hbm
        · exact h1 q2 h
    · have hstep : bfold (fun a b2 => decide (a < b2)) (some b, true) (q :: T) =
          bfold (fun a b2 => decide (a < b2)) (some b, true) T := by
        show bfold _ (bstep _ (some b, true) q) T = _
        simp [bstep, hlt]
      rcases ih b with ⟨heq, hall⟩ | ⟨T1, m, T2, hsplit, heq, hbm, h1, h2⟩
      · left
        refine ⟨by rw [hstep]; exact heq, ?_⟩
        intro q2 hq2
        rcases List.mem_cons.mp hq2 with h | h
        · rw [h]
          omega
        · exact hall q2 h
      · right
        refine ⟨q :: T1, m, T2, by rw [hsplit]; rfl, by rw [hstep]; exact heq,
          hbm, ?_, h2⟩
        intro q2 hq2
        rcases List.mem_cons.mp hq2 with h | h
        · rw [h]
          omega
        · exact h1 q2 h

/-- C1 (corrected): under sufficient fuel, `shortest_path` returns a member
of the list of all root-to-terminal paths (exactly the `PathTo` paths), but
the comparison `ltC pc current_cost` makes it keep the path of MAXIMUM
accumulated cost, ties resolved in favour of the first found: all candidates
visited earlier are strictly cheaper and all later ones are no more
expensive. The claimed minimality does not hold. -/
theorem claim_C1 {N : Type} (succs : N → List (N × ℕ)) (succQ : N → Bool)
    (addC : ℕ → ℕ → ℕ) (fuel : ℕ) (start : N) (zeroC : ℕ)
    (hok : fuelOk succs succQ fuel start = true)
    (hne : terminalPaths succs succQ addC fuel start zeroC ≠ []) :
    (∀ (p : List N) (pc : ℕ), PathTo succs succQ addC start zeroC p pc ↔
      (p, pc) ∈ terminalPaths succs succQ addC fuel start zeroC) ∧
    ∃ T1 m T2, terminalPaths succs succQ addC fuel start zeroC =
        T1 ++ m :: T2 ∧
      shortest_path succs succQ addC (fun a b => decide (a < b)) zeroC fuel
        start = some m ∧
      (∀ q ∈ T1, q.2 < m.2) ∧ (∀ q ∈ T2, q.2 ≤ m.2) := by
  constructor
  · intro p pc
    exact (mem_terminalPaths_iff succs succQ addC fuel start zeroC hok
      p pc).symm
  · rw [shortest_path, spr_eq_bfold succs succQ addC
      (fun a b => decide (a < b)) fuel start zeroC none hok
      (fun p pc h => absurd h (by simp))]
    rcases hT : terminalPaths succs succQ addC fuel start zeroC with _ | ⟨q, T⟩
    · exact absurd hT hne
    · have hb : bfold (fun a b : ℕ => decide (a < b)) (none, false) (q :: T) =
          bfold (fun a b : ℕ => decide (a < b)) (some q, true) T := rfl
      rw [hb]
      rcases bfold_firstmax T q with ⟨heq, hall⟩ |
        ⟨T1, m, T2, hsplit, heq, hbm, h1, h2⟩
      · exact ⟨[], q, T, rfl, by rw [heq], by simp, hall⟩
      · refine ⟨q :: T1, m, T2, by rw [hsplit]; rfl, by rw [heq], ?_, h2⟩
        intro q2 hq2
        rcases List.mem_cons.mp hq2 with h | h
        · rw [h]
          exact hbm
        · exact h1 q2 h

/-- The two-leaf graph refuting C1's minimality: the engine keeps the
cost-5 path even though the cost-3 root-to-terminal path exists and was
visited first. -/
theorem claim_C1_counterexample :
    shortest_path twoLeafSuccs twoLeafDone Nat.add (fun a b => decide (a < b))
      0 3 0 = some ([0, 2], 5) ∧
    PathTo twoLeafSuccs twoLeafDone Nat.add 0 0 [0, 1] 3 ∧ (3 : ℕ) < 5 := by
  refine ⟨by decide, ?_, by norm_num⟩
  exact PathTo.step 0 0 1 3 [1] 3 (by decide) (by decide)
    (PathTo.terminal 1 3 (by decide))

theorem claim_C1_witness :
    (PathTo twoLeafSuccs twoLeafDone Nat.add 0 0 [0, 2] 5 ↔
      ([0, 2], 5) ∈ terminalPaths twoLeafSuccs twoLeafDone Nat.add 2 0 0) ∧
    ∃ T1 m T2, terminalPaths twoLeafSuccs twoLeafDone Nat.add 2 0 0 =
        T1 ++ m :: T2 ∧
      shortest_path twoLeafSuccs twoLeafDone Nat.add
        (fun a b => decide (a < b)) 0 2 0 = some m ∧
      (∀ q ∈ T1, q.2 < m.2) ∧ (∀ q ∈ T2, q.2 ≤ m.2) :=
  ⟨(claim_C1 twoLeafSuccs twoLeafDone Nat.add 2 0 0 (by decide) (by decide)).1
      [0, 2] 5,
   (claim_C1 twoLeafSuccs twoLeafDone Nat.add 2 0 0 (by decide) (by decide)).2⟩

/-! ## Reachability and termination of `project` -/

theorem successors_shape {s : State} {args : ProjectArgs} {s2 : State} {c : ℕ}
    (h : (s2, c) ∈ successors s args) :
    s2.year = wrap16 (s.year + 1) ∧ s2.ira < 2 ^ 32 := by
  rw [successors] at h
  obtain ⟨o, ho, hoeq⟩ := List.mem_filterMap.mp h
  simp only [id_eq] at hoeq
  simp only [List.mem_cons, List.not_mem_nil, or_false] at ho
  rcases ho with h1 | h1 <;>
  · rw [h1] at hoeq
    obtain ⟨hs2, _⟩ := take_action_some_shape hoeq
    rw [hs2]
    exact ⟨rfl, F64.toU32_lt _⟩

theorem successors_ne_nil {s : State} (args : ProjectArgs)
    (h : s.ira < 2 ^ 32) : successors s args ≠ [] := by
  have hta := take_action_none_iff s Action.Continue args.birth_year
    args.birth_month args.yearly_taxable_income_excluding_ira
    args.roth_effective_annual_rate args.ira_effective_annual_rate
    args.inflation_effective_annual_rate
  have hrmdb := get_rmd_bound args.birth_year args.birth_month s.year s.ira h
  rcases hta2 : s.take_action Action.Continue args.birth_year args.birth_month
      args.yearly_taxable_income_excluding_ira args.roth_effective_annual_rate
      args.ira_effective_annual_rate args.inflation_effective_annual_rate
    with _ | x
  · have hdisj := hta.mp hta2
    simp only [Action.rolloverAmount, add32] at hdisj
    rcases hdisj with h1 | h1 <;> omega
  · simp [successors, hta2, List.filterMap_cons]

theorem spr_never_terminal (args : ProjectArgs) (hend : args.end_year = 65535) :
    ∀ (fuel : ℕ) (n : State) (c : ℕ) (acc : Option (List State × ℕ)),
    n.year < 2 ^ 16 →
    shortest_path_recursive (fun s => successors s args)
      (fun s => decide (args.end_year < s.year)) add32
      (fun a b => decide (a < b)) fuel n c acc = (acc, false) := by
  intro fuel
  induction fuel with
  | zero =>
    intro n c acc _
    rfl
  | succ fuel ih =>
    intro n c acc hy
    have hq : decide (args.end_year < n.year) = false :=
      decide_eq_false (by omega)
    simp only [shortest_path_recursive, hq, Bool.false_eq_true, if_false]
    have hfold : ∀ l : List (State × ℕ), (∀ nc ∈ l, nc.1.year < 2 ^ 16) →
        ∀ acc2 : Option (List State × ℕ),
        l.foldl (fun a nc =>
          let r := shortest_path_recursive (fun s => successors s args)
            (fun s => decide (args.end_year < s.year)) add32
            (fun a2 b2 => decide (a2 < b2)) fuel nc.1 (add32 c nc.2) a.1
          (r.1, r.2 || a.2)) (acc2, false) = (acc2, false) := by
      intro l
      induction l with
      | nil =>
        intro _ acc2
        rfl
      | cons nc l ihl =>
        intro hall acc2
        rw [List.foldl_cons]
        simp only
        rw [ih nc.1 (add32 c nc.2) acc2 (hall nc (List.mem_cons_self nc l))]
        simp only [Bool.or_false]
        exact ihl (fun x hx => hall x (List.mem_cons_of_mem nc hx)) acc2
    have hys : ∀ nc ∈ successors n args, nc.1.year < 2 ^ 16 := by
      intro nc hnc
      rcases nc with ⟨s2, cc⟩
      obtain ⟨hy2, _⟩ := successors_shape hnc
      show s2.year < 2 ^ 16
      rw [hy2]
      simp only [wrap16]
      omega
    rw [hfold (successors n args) hys acc]
    rfl

theorem fuelOk_project (args : ProjectArgs) (hend : args.end_year ≤ 65534) :
    ∀ (k : ℕ) (s : State), s.ira < 2 ^ 32 → s.year ≤ args.end_year + 1 →
    args.end_year < s.year + k →
    fuelOk (fun s => successors s args)
      (fun s => decide (args.end_year < s.year)) (k + 1) s = true := by
  intro k
  induction k with
  | zero =>
    intro s _ _ hlt
    rw [fuelOk]
    rw [decide_eq_true (by omega : args.end_year < s.year), Bool.true_or]
  | succ k ih =>
    intro s hira hy hlt
    rw [fuelOk]
    by_cases hterm : args.end_year < s.year
    · rw [decide_eq_true hterm, Bool.true_or]
    · have hys : s.year ≤ args.end_year := by omega
      rw [decide_eq_false hterm, Bool.false_or, List.all_eq_true]
      intro nc hnc
      rcases nc with ⟨s2, cc⟩
      obtain ⟨hy2, hira2⟩ := successors_shape hnc
      have hy2' : s2.year = s.year + 1 := by
        rw [hy2]
        simp only [wrap16]
        omega
      exact ih s2 hira2 (by omega) (by omega)

theorem terminalPaths_ne_nil (args : ProjectArgs) :
    ∀ (fuel : ℕ) (n : State) (c : ℕ),
    fuelOk (fun s => successors s args)
      (fun s => decide (args.end_year < s.year)) fuel n = true →
    n.ira < 2 ^ 32 →
    terminalPaths (fun s => successors s args)
      (fun s => decide (args.end_year < s.year)) add32 fuel n c ≠ [] := by
  intro fuel
  induction fuel with
  | zero =>
    intro n c h _
    simp [fuelOk] at h
  | succ fuel ih =>
    intro n c hok hira
    rw [terminalPaths]
    by_cases hq : decide (args.end_year < n.year) = true
    · rw [if_pos hq]
      exact List.cons_ne_nil _ _
    · have hq' : decide (args.end_year < n.year) = false := by
        cases h : decide (args.end_year < n.year)
        · rfl
        · exact absurd h hq
      rw [if_neg hq]
      have hall : ∀ nc ∈ successors n args,
          fuelOk (fun s => successors s args)
            (fun s => decide (args.end_year < s.year)) fuel nc.1 = true := by
        rw [fuelOk, hq', Bool.false_or, List.all_eq_true] at hok
        exact hok
      rcases hs : successors n args with _ | ⟨nc, rest⟩
      · exact absurd hs (successors_ne_nil args hira)
      · rw [List.map_cons, List.flatten_cons]
        intro hcontra
        rw [List.append_eq_nil] at hcontra
        rcases nc with ⟨s2, cc⟩
        have hmem : ((s2, cc) : State × ℕ) ∈ successors n args := by
          rw [hs]
          exact List.mem_cons_self _ _
        obtain ⟨_, hira2⟩ := successors_shape hmem
        have hne2 := ih s2 (add32 c cc) (hall (s2, cc) hmem) hira2
        exact hne2 (List.map_eq_nil.mp hcontra.1)

theorem bfold_none_some {N : Type} (T : List (List N × ℕ)) (h : T ≠ []) :
    ∃ m, (bfold (fun a b => decide (a < b)) (none, false) T).1 = some m := by
  rcases T with _ | ⟨q, T⟩
  · exact absurd rfl h
  · have hb : bfold (fun a b : ℕ => decide (a < b)) (none, false) (q :: T) =
        bfold (fun a b : ℕ => decide (a < b)) (some q, true) T := rfl
    rw [hb]
    rcases bfold_firstmax T q with ⟨heq, _⟩ | ⟨T1, m, T2, _, heq, _, _, _⟩
    · exact ⟨q, by rw [heq]⟩
    · exact ⟨m, by rw [heq]⟩

/-- C9 (amended): `Continue` is always feasible on a `u32`-ranged state (the
RMD never exceeds the balance), so every non-terminal state has a successor;
and `project` does return `Some` on validated input — provided the end year
is strictly below `u16::MAX`. With `end_year = 65535` the terminal test
`year > end_year` is unsatisfiable for a wrapped `u16` year and the
recursion never returns (see the counterexample). -/
theorem claim_C9 :
    (∀ (s : State) (birth_year birth_month income : ℕ)
      (roth_rate ira_rate inflation : F64), s.ira < 2 ^ 32 →
      s.take_action Action.Continue birth_year birth_month income roth_rate
        ira_rate inflation ≠ none) ∧
    (∀ args : ProjectArgs, args.validate = true → args.end_year ≤ 65534 →
      args.ira_present_value < 2 ^ 32 →
      ∃ pc, project args (args.end_year + 2 - args.start_year) = some pc) := by
  constructor
  · intro s birth_year birth_month income roth_rate ira_rate inflation hira hnone
    have hrmdb := get_rmd_bound birth_year birth_month s.year s.ira hira
    have hdisj := (take_action_none_iff s Action.Continue birth_year
      birth_month income roth_rate ira_rate inflation).mp hnone
    simp only [Action.rolloverAmount, add32] at hdisj
    rcases hdisj with h1 | h1 <;> omega
  · intro args hval hend hira
    have hse : args.start_year ≤ args.end_year := by
      by_contra hc
      simp only [ProjectArgs.validate] at hval
      split_ifs at hval <;> simp_all <;> omega
    have hfuel : args.end_year + 2 - args.start_year =
        (args.end_year + 1 - args.start_year) + 1 := by omega
    have hok := fuelOk_project args hend
      (args.end_year + 1 - args.start_year)
      (State.new args.start_year args.roth_present_value
        args.ira_present_value args.basis_value args.starting_cash)
      hira (by show args.start_year ≤ args.end_year + 1; omega)
      (by show args.end_year < args.start_year + _; omega)
    have hne := terminalPaths_ne_nil args
      ((args.end_year + 1 - args.start_year) + 1)
      (State.new args.start_year args.roth_present_value
        args.ira_present_value args.basis_value args.starting_cash)
      0 hok hira
    simp only [project, hval]
    rw [if_neg (by simp)]
    rw [hfuel, shortest_path]
    rw [spr_eq_bfold (fun s => successors s args)
      (fun s => decide (args.end_year < s.year)) add32
      (fun a b => decide (a < b))
      ((args.end_year + 1 - args.start_year) + 1)
      (State.new args.start_year args.roth_present_value
        args.ira_present_value args.basis_value args.starting_cash)
      0 none hok (fun p pc h => absurd h (by simp))]
    exact bfold_none_some _ hne

/-- The scenario refuting C9's unconditional totality: `end_year = 65535`
passes validation, yet `project` diverges — the wrapped `u16` year can never
exceed the end year, so no fuel bound returns an answer (the Rust recursion
never terminates). -/
theorem claim_C9_counterexample :
    wrapArgs.validate = true ∧ projectDiverges wrapArgs := by
  refine ⟨by decide, ?_⟩
  intro fuel
  simp only [project]
  rw [if_neg (by simp [show wrapArgs.validate = true from by decide])]
  rw [shortest_path]
  rw [spr_never_terminal wrapArgs (by decide) fuel
    (State.new wrapArgs.start_year wrapArgs.roth_present_value
      wrapArgs.ira_present_value wrapArgs.basis_value wrapArgs.starting_cash)
    0 none (by decide)]

theorem claim_C9_witness :
    ((State.mk 2035 none 0 1000 0 0 0).take_action Action.Continue 2000 6 0
      ⟨0, 0⟩ ⟨0, 0⟩ ⟨0, 0⟩ ≠ none) ∧
    ∃ pc, project shrinkArgs
      (shrinkArgs.end_year + 2 - shrinkArgs.start_year) = some pc :=
  ⟨claim_C9.1 (State.mk 2035 none 0 1000 0 0 0) 2000 6 0 ⟨0, 0⟩ ⟨0, 0⟩ ⟨0, 0⟩
    (by norm_num),
   claim_C9.2 shrinkArgs (by decide) (by decide) (by decide)⟩
